import Mathlib

/-! The link pipeline of `core/core.go` in `gkwa/eastwas`.

A shallow embedding of `core/core.go` (package `core` of `gkwa/eastwas`) together with the
parts of the Go standard library its functions call (`strings`, `net/url`, `regexp`,
`text/template`), followed by theorems about `getFinalURL`, the title extraction of
`getPageTitle`, `generateOutput`, the worker loop `fetchURL` and the pool
`fetchURLsConcurrently`.

Go strings are byte sequences; a byte is a natural number. Two things are parameters of the
functions: `otherHost`, what `net/url` does with a host that is not a plain name (under a
given scheme), and `httpGet`, what a fetch gives.
-/

deriving instance DecidableEq for Except

namespace Eastwas

/-! ## Strings -/

/-- A Go string: its sequence of bytes. -/
abbrev GoString := List Nat

/-- The bytes of an ASCII literal. -/
def str (s : String) : GoString := s.data.map Char.toNat

/-- Go `strings.HasPrefix`. -/
def hasPrefix : GoString → GoString → Bool
  | _, [] => true
  | [], _ :: _ => false
  | c :: s, d :: p => c == d && hasPrefix s p

/-- Go `strings.Contains`. -/
def contains : GoString → GoString → Bool
  | [], sub => hasPrefix [] sub
  | c :: s, sub => hasPrefix (c :: s) sub || contains s sub

/-- Go `strings.HasSuffix`. -/
def hasSuffix (s suffix : GoString) : Bool :=
  hasPrefix s.reverse suffix.reverse

/-- Go `strings.Count` for a non-empty separator (non-overlapping occurrences); the
fuel is the length of the string. -/
def countFrom (sep : GoString) : Nat → GoString → Nat
  | 0, _ => 0
  | _ + 1, [] => 0
  | fuel + 1, c :: s =>
    if hasPrefix (c :: s) sep then 1 + countFrom sep fuel ((c :: s).drop sep.length)
    else countFrom sep fuel s

/-- Go `strings.Count`, used with one-byte separators only. -/
def count (s sep : GoString) : Nat := countFrom sep s.length s

/-- Go `strings.Cut`: the text before and after the first occurrence of `sep`, and whether
`sep` occurs; without an occurrence the whole string is the first component. -/
def cut (sep : GoString) : GoString → GoString × GoString × Bool
  | [] => if hasPrefix [] sep then ([], [], true) else ([], [], false)
  | c :: s =>
    if hasPrefix (c :: s) sep then ([], (c :: s).drop sep.length, true)
    else
      let r := cut sep s
      (c :: r.1, r.2.1, r.2.2)

/-- Go `strings.Index`, as an option. -/
def index (sep : GoString) : GoString → Option Nat
  | [] => if hasPrefix [] sep then some 0 else none
  | c :: s =>
    if hasPrefix (c :: s) sep then some 0
    else (index sep s).map (· + 1)

/-- Go `strings.LastIndex` for a one-byte separator, as an option. -/
def lastIndexByte (b : Nat) : GoString → Option Nat
  | [] => none
  | c :: s =>
    match lastIndexByte b s with
    | some i => some (i + 1)
    | none => if c == b then some 0 else none

/-- The lower-case form of one byte: `A`..`Z` move to `a`..`z`. -/
def lowerByte (c : Nat) : Nat :=
  if 65 ≤ c ∧ c ≤ 90 then c + 32 else c

/-- Go `strings.ToLower` on the ASCII letters. On a string with non-ASCII runes Go also
maps those runes; no rune outside ASCII lowers to a byte of the wrapper pattern (the only
runes that lower into ASCII are U+0130 to `i` and U+212A to `k`), so the containment test
of `getFinalURL` is the same. -/
def toLower (s : GoString) : GoString := s.map lowerByte

/-! ## `net/url` -/

/-- The errors of `net/url`. -/
inductive UrlError where
  | invalidControlCharacter
  | emptyURL
  | missingProtocolScheme
  | invalidURIForRequest
  | firstPathSegmentColon
  | escapeError (s : GoString)
  | invalidHostError (s : GoString)
  | invalidUserinfo
  deriving DecidableEq, Repr

/-- The `encoding` modes of `net/url`. -/
inductive Encoding where
  | encodePath
  | encodePathSegment
  | encodeHost
  | encodeZone
  | encodeUserPassword
  | encodeQueryComponent
  | encodeFragment
  deriving DecidableEq, Repr

/-- Go `ishex`. -/
def ishex (c : Nat) : Bool :=
  (48 ≤ c && c ≤ 57) || (97 ≤ c && c ≤ 102) || (65 ≤ c && c ≤ 70)

/-- Go `unhex`. -/
def unhex (c : Nat) : Nat :=
  if 48 ≤ c ∧ c ≤ 57 then c - 48
  else if 97 ≤ c ∧ c ≤ 102 then c - 97 + 10
  else if 65 ≤ c ∧ c ≤ 70 then c - 65 + 10
  else 0

/-- Whether `c` is an ASCII letter or digit. -/
def isAlnum (c : Nat) : Bool :=
  (97 ≤ c && c ≤ 122) || (65 ≤ c && c ≤ 90) || (48 ≤ c && c ≤ 57)

/-- Go `shouldEscape`. -/
def shouldEscape (c : Nat) (mode : Encoding) : Bool :=
  if isAlnum c then false
  else if (mode = .encodeHost ∨ mode = .encodeZone) ∧
      c ∈ [33, 36, 38, 39, 40, 41, 42, 43, 44, 59, 61, 58, 91, 93, 60, 62, 34] then false
  else if c ∈ [45, 95, 46, 126] then false
  else if c ∈ [36, 38, 43, 44, 47, 58, 59, 61, 63, 64] then
    match mode with
    | .encodePath => c == 63
    | .encodePathSegment => c == 47 || c == 59 || c == 44 || c == 63
    | .encodeUserPassword => c == 64 || c == 47 || c == 63 || c == 58
    | .encodeQueryComponent => true
    | .encodeFragment => false
    | _ => true
  else if mode = .encodeFragment ∧ c ∈ [33, 40, 41, 42] then false
  else true

/-- The first pass of Go `unescape`: every `%` starts a well-formed escape that the mode
allows, and no byte is forbidden in a host. It returns the number of escapes and whether a
`+` is to be decoded. -/
def unescapeScan (mode : Encoding) : GoString → Nat → Bool → Except UrlError (Nat × Bool)
  | [], n, hasPlus => .ok (n, hasPlus)
  | c :: s, n, hasPlus =>
    if c = 37 then
      match s with
      | a :: b :: rest =>
        if !ishex a || !ishex b then .error (.escapeError [37, a, b])
        else if mode = .encodeHost ∧ unhex a < 8 ∧ [37, a, b] ≠ [37, 50, 53] then
          .error (.escapeError [37, a, b])
        else if mode = .encodeZone ∧ [37, a, b] ≠ [37, 50, 53] ∧
            (unhex a * 16 + unhex b) ≠ 32 ∧
            shouldEscape (unhex a * 16 + unhex b) .encodeHost then
          .error (.escapeError [37, a, b])
        else unescapeScan mode rest (n + 1) hasPlus
      | _ => .error (.escapeError (c :: s))
    else if c = 43 then unescapeScan mode s n (mode = .encodeQueryComponent)
    else if (mode = .encodeHost ∨ mode = .encodeZone) ∧ c < 128 ∧
        shouldEscape c .encodeHost then
      .error (.invalidHostError [c])
    else unescapeScan mode s n hasPlus

/-- The second pass of Go `unescape`: the decoded bytes. -/
def unescapeWrite (mode : Encoding) : GoString → GoString
  | [] => []
  | c :: s =>
    if c = 37 then
      match s with
      | a :: b :: rest => (unhex a * 16 + unhex b) :: unescapeWrite mode rest
      | _ => []
    else if c = 43 then
      (if mode = .encodeQueryComponent then 32 else 43) :: unescapeWrite mode s
    else c :: unescapeWrite mode s

/-- Go `unescape`. -/
def unescape (s : GoString) (mode : Encoding) : Except UrlError GoString :=
  match unescapeScan mode s 0 false with
  | .error e => .error e
  | .ok (n, hasPlus) =>
    if n = 0 ∧ hasPlus = false then .ok s else .ok (unescapeWrite mode s)

/-- Go `url.QueryUnescape`. -/
def QueryUnescape (s : GoString) : Except UrlError GoString :=
  unescape s .encodeQueryComponent

/-- Go `url.Userinfo`: a user name and an optional password. -/
structure Userinfo where
  username : GoString
  password : Option GoString
  deriving DecidableEq, Repr

/-- Go `url.URL`. The hints `RawPath` and `RawFragment`, which only record the spelling of
`Path` and `Fragment`, are left out: nothing in this program reads them. -/
structure URL where
  Scheme : GoString := []
  Opaque : GoString := []
  User : Option Userinfo := none
  Host : GoString := []
  Path : GoString := []
  ForceQuery : Bool := false
  OmitHost : Bool := false
  RawQuery : GoString := []
  Fragment : GoString := []
  deriving DecidableEq, Repr

/-- Go `stringContainsCTLByte`. -/
def stringContainsCTLByte (s : GoString) : Bool :=
  s.any fun b => b < 32 || b == 127

/-- The loop of Go `getScheme`: `i` is the index of the next byte and `rest` the bytes
from there on. -/
def getSchemeLoop (rawURL : GoString) : Nat → GoString → Except UrlError (GoString × GoString)
  | _, [] => .ok ([], rawURL)
  | i, c :: rest =>
    if (97 ≤ c ∧ c ≤ 122) ∨ (65 ≤ c ∧ c ≤ 90) then getSchemeLoop rawURL (i + 1) rest
    else if (48 ≤ c ∧ c ≤ 57) ∨ c = 43 ∨ c = 45 ∨ c = 46 then
      if i = 0 then .ok ([], rawURL) else getSchemeLoop rawURL (i + 1) rest
    else if c = 58 then
      if i = 0 then .error .missingProtocolScheme else .ok (rawURL.take i, rest)
    else .ok ([], rawURL)

/-- Go `getScheme`: the scheme and the text after its colon. -/
def getScheme (rawURL : GoString) : Except UrlError (GoString × GoString) :=
  getSchemeLoop rawURL 0 rawURL

/-- Go `validUserinfo`. -/
def validUserinfo (s : GoString) : Bool :=
  s.all fun r => isAlnum r ||
    r ∈ [45, 46, 95, 58, 126, 33, 36, 38, 39, 40, 41, 42, 43, 44, 59, 61, 37, 64]

/-- Whether a host is a plain name: letters, digits, `-` and `.` only. -/
def isPlainHost (host : GoString) : Bool :=
  host.all fun c => isAlnum c || c == 45 || c == 46

/-- Go `parseHost`. A plain name has no port, no escape and no bracket to check, and every
release of Go returns it as it is. What the library does with any other host (a port, an
escape, an IP literal in brackets, several colons) has changed between releases and may
depend on the scheme; it is the parameter `otherHost`, a function of the scheme and the
host, and the theorems hold for every such treatment. -/
def parseHost (otherHost : GoString → GoString → Except UrlError GoString)
    (scheme host : GoString) : Except UrlError GoString :=
  if isPlainHost host then .ok host else otherHost scheme host

/-- A treatment of the other hosts that refuses them all. It serves to evaluate the
functions at URLs whose host is a plain name, where the treatment of other hosts plays no
part. -/
def refuseHost (_ host : GoString) : Except UrlError GoString :=
  .error (.invalidHostError host)

/-- Go `parseAuthority`. -/
def parseAuthority (otherHost : GoString → GoString → Except UrlError GoString)
    (scheme authority : GoString) :
    Except UrlError (Option Userinfo × GoString) :=
  match lastIndexByte 64 authority with
  | none =>
    match parseHost otherHost scheme authority with
    | .error e => .error e
    | .ok host => .ok (none, host)
  | some i =>
    match parseHost otherHost scheme (authority.drop (i + 1)) with
    | .error e => .error e
    | .ok host =>
      let userinfo := authority.take i
      if !validUserinfo userinfo then .error .invalidUserinfo
      else if !contains userinfo [58] then
        match unescape userinfo .encodeUserPassword with
        | .error e => .error e
        | .ok name => .ok (some ⟨name, none⟩, host)
      else
        let c := cut [58] userinfo
        match unescape c.1 .encodeUserPassword with
        | .error e => .error e
        | .ok username =>
          match unescape c.2.1 .encodeUserPassword with
          | .error e => .error e
          | .ok password => .ok (some ⟨username, some password⟩, host)

/-- The end of Go `parse`, from the test for an authority on: `url` holds the scheme and
the query, `rest` is what remains in front of the query. -/
def parseAuthorityAndPath (otherHost : GoString → GoString → Except UrlError GoString) (url : URL)
    (rest : GoString) (viaRequest : Bool) :
    Except UrlError URL :=
  if (url.Scheme ≠ [] ∨ (viaRequest = false ∧ hasPrefix rest [47, 47, 47] = false)) ∧
      hasPrefix rest [47, 47] = true then
    let authority0 := rest.drop 2
    let split : GoString × GoString :=
      match index [47] authority0 with
      | some i => (authority0.take i, authority0.drop i)
      | none => (authority0, [])
    match parseAuthority otherHost url.Scheme split.1 with
    | .error e => .error e
    | .ok (user, host) =>
      match unescape split.2 .encodePath with
      | .error e => .error e
      | .ok path => .ok { url with User := user, Host := host, Path := path }
  else
    let url1 : URL :=
      if url.Scheme ≠ [] ∧ hasPrefix rest [47] = true then { url with OmitHost := true }
      else url
    match unescape rest .encodePath with
    | .error e => .error e
    | .ok path => .ok { url1 with Path := path }

/-- Go `parse` (of `net/url`). -/
def parse (otherHost : GoString → GoString → Except UrlError GoString) (rawURL : GoString)
    (viaRequest : Bool) : Except UrlError URL :=
  if stringContainsCTLByte rawURL then .error .invalidControlCharacter
  else if rawURL = [] ∧ viaRequest = true then .error .emptyURL
  else if rawURL = [42] then .ok { Path := [42] }
  else
    match getScheme rawURL with
    | .error e => .error e
    | .ok (scheme, rest0) =>
      let q : GoString × GoString × Bool :=
        if hasSuffix rest0 [63] = true ∧ count rest0 [63] = 1 then (rest0.dropLast, [], true)
        else ((cut [63] rest0).1, (cut [63] rest0).2.1, false)
      let url : URL := { Scheme := toLower scheme, RawQuery := q.2.1, ForceQuery := q.2.2 }
      let rest := q.1
      if hasPrefix rest [47] = false then
        if url.Scheme ≠ [] then .ok { url with Opaque := rest }
        else if viaRequest then .error .invalidURIForRequest
        else if contains (cut [47] rest).1 [58] then .error .firstPathSegmentColon
        else parseAuthorityAndPath otherHost url rest viaRequest
      else parseAuthorityAndPath otherHost url rest viaRequest

/-- Go `url.Parse`. -/
def Parse (otherHost : GoString → GoString → Except UrlError GoString) (rawURL : GoString) :
    Except UrlError URL :=
  let c := cut [35] rawURL
  match parse otherHost c.1 false with
  | .error e => .error e
  | .ok url =>
    if c.2.1 = [] then .ok url
    else
      match unescape c.2.1 .encodeFragment with
      | .error e => .error e
      | .ok frag => .ok { url with Fragment := frag }

/-- Go `url.Values`: a map from a key to the values recorded for it, in order. -/
abbrev Values := List (GoString × List GoString)

/-- The map update `m[key] = append(m[key], value)`. -/
def Values.add (key value : GoString) : Values → Values
  | [] => [(key, [value])]
  | (k, vs) :: m =>
    if k = key then (k, vs ++ [value]) :: m else (k, vs) :: Values.add key value m

/-- Go `Values.Get`: the first value recorded for the key, or the empty string. -/
def Values.Get (v : Values) (key : GoString) : GoString :=
  match v.lookup key with
  | some (x :: _) => x
  | _ => []

/-- The loop of Go `parseQuery`, `for query != ""`; every round removes at least one byte
of `query`, and the fuel is its length. -/
def parseQueryLoop : Nat → Values → GoString → Values
  | 0, m, _ => m
  | fuel + 1, m, query =>
    if query = [] then m
    else
      let c := cut [38] query
      let key := c.1
      let query1 := c.2.1
      if contains key [59] then parseQueryLoop fuel m query1
      else if key = [] then parseQueryLoop fuel m query1
      else
        let kv := cut [61] key
        match QueryUnescape kv.1 with
        | .error _ => parseQueryLoop fuel m query1
        | .ok key1 =>
          match QueryUnescape kv.2.1 with
          | .error _ => parseQueryLoop fuel m query1
          | .ok value => parseQueryLoop fuel (Values.add key1 value m) query1

/-- The default of the limit on the number of query parameters (`urlmaxqueryparams`). -/
def defaultMaxParams : Nat := 10000

/-- Go `parseQuery`: a query of more than `defaultMaxParams` pieces is refused before the
loop and the map stays as it is; the error is what `Query` drops. -/
def parseQuery (m : Values) (query : GoString) : Values × Bool :=
  if defaultMaxParams < count query [38] + 1 then (m, true)
  else (parseQueryLoop query.length m query, false)

/-- Go `(*URL).Query`: the map of `ParseQuery` of the raw query, its error dropped. -/
def URL.Query (u : URL) : Values :=
  (parseQuery [] u.RawQuery).1

/-! ## `getFinalURL` -/

/-- The redirect-wrapper pattern of `getFinalURL`. -/
def wrapperPattern : GoString := str "https://www.google.com/url?q="

/-- `getFinalURL` of `core/core.go`. -/
def getFinalURL (otherHost : GoString → GoString → Except UrlError GoString) (urlStr : GoString) :
    Except UrlError GoString :=
  if contains (toLower urlStr) wrapperPattern then
    match Parse otherHost urlStr with
    | .error e => .error e
    | .ok u => .ok ((u.Query).Get (str "q"))
  else .ok urlStr

/-! ## The query string in the words of the specification -/

/-- The pieces of a string between the occurrences of the byte `b` (Go `strings.Split`). -/
def splitOn (b : Nat) : GoString → List GoString
  | [] => [[]]
  | c :: s =>
    if c = b then [] :: splitOn b s
    else
      match splitOn b s with
      | p :: ps => (c :: p) :: ps
      | [] => [[c]]

/-- The query string of a URL: the text between the first `?` and the first `#`. -/
def queryString (u : GoString) : GoString := (cut [63] (cut [35] u).1).2.1

/-- The value of a hexadecimal digit. -/
def hexValue (c : Nat) : Option Nat :=
  if 48 ≤ c ∧ c ≤ 57 then some (c - 48)
  else if 65 ≤ c ∧ c ≤ 70 then some (c - 55)
  else if 97 ≤ c ∧ c ≤ 102 then some (c - 87)
  else none

/-- The decoding of a query component in the words of the specification: `%XX` is the
byte with the hexadecimal digits `XX`, `+` is a space, any other byte is itself; a `%`
without two hexadecimal digits after it makes the component malformed. -/
def percentDecode : GoString → Option GoString
  | [] => some []
  | c :: s =>
    if c = 37 then
      match s with
      | a :: b :: rest =>
        match hexValue a, hexValue b, percentDecode rest with
        | some x, some y, some t => some ((x * 16 + y) :: t)
        | _, _, _ => none
      | _ => none
    else if c = 43 then (percentDecode s).map fun t => 32 :: t
    else (percentDecode s).map fun t => c :: t

/-- One piece `key=value` of a query string as a parameter, both sides decoded; a piece
that is empty, holds a semicolon or has a malformed escape is no parameter. -/
def queryParam (piece : GoString) : Option (GoString × GoString) :=
  if contains piece [59] then none
  else if piece = [] then none
  else
    match percentDecode (cut [61] piece).1 with
    | none => none
    | some k =>
      match percentDecode (cut [61] piece).2.1 with
      | none => none
      | some v => some (k, v)

/-- The parameters of a query string, in order. -/
def queryParams (query : GoString) : List (GoString × GoString) :=
  (splitOn 38 query).filterMap queryParam

/-- The value of the first parameter named `key`, or the empty string without one. -/
def firstParam (key query : GoString) : GoString :=
  match (queryParams query).find? (fun p => p.1 = key) with
  | some p => p.2
  | none => []

/-- The values a list of parameters gives for one key, in order. -/
def valuesOf (key : GoString) (ps : List (GoString × GoString)) : List GoString :=
  (ps.filter fun p => p.1 = key).map fun p => p.2

/-! ## `text/template` and `generateOutput` -/

/-- The data a template of this program is executed on: a string or a slice of strings. -/
inductive Value where
  | string (s : GoString)
  | strings (xs : List GoString)
  deriving DecidableEq, Repr

/-- The parse tree of a template: each node is followed by the rest of its list. `text` is
literal text, `dot` the action `{{.}}`, `range` the block `{{range .}}`...`{{end}}`. -/
inductive Tmpl where
  | done
  | text (s : GoString) (rest : Tmpl)
  | dot (rest : Tmpl)
  | range (body : Tmpl) (rest : Tmpl)
  deriving DecidableEq, Repr

/-- The errors of executing a template. -/
inductive ExecError where
  | rangeOverNonSlice
  deriving DecidableEq, Repr

/-- What `{{.}}` prints (`fmt.Fprint`): a string verbatim, a slice as `[a b c]`. -/
def printValue : Value → GoString
  | .string s => s
  | .strings xs => [91] ++ List.intercalate [32] xs ++ [93]

/-- The iteration of `{{range .}}`: the body once per element, the element as the dot. -/
def execRange (body : Value → Except ExecError GoString) :
    List GoString → Except ExecError GoString
  | [] => .ok []
  | x :: xs =>
    match body (.string x) with
    | .error e => .error e
    | .ok out =>
      match execRange body xs with
      | .error e => .error e
      | .ok outs => .ok (out ++ outs)

/-- Go `(*Template).Execute` of `text/template`, which escapes nothing: the output written
for a parse tree and a dot. -/
def execute : Tmpl → Value → Except ExecError GoString
  | .done, _ => .ok []
  | .text s rest, v =>
    match execute rest v with
    | .error e => .error e
    | .ok out => .ok (s ++ out)
  | .dot rest, v =>
    match execute rest v with
    | .error e => .error e
    | .ok out => .ok (printValue v ++ out)
  | .range body rest, v =>
    match v with
    | .string _ => .error .rangeOverNonSlice
    | .strings xs =>
      match execRange (execute body) xs with
      | .error e => .error e
      | .ok out =>
        match execute rest v with
        | .error e => .error e
        | .ok out2 => .ok (out ++ out2)

/-- The parse tree of the template literal of `generateOutput`: a `range` whose body is a
newline followed by `{{.}}`. -/
def outputTemplate : Tmpl :=
  .range (.text [10] (.dot .done)) .done

/-- `generateOutput` of `core/core.go`. -/
def generateOutput (friendlyURLs : List GoString) : GoString :=
  match execute outputTemplate (.strings friendlyURLs) with
  | .error _ => []
  | .ok output => output

/-! ## `regexp` and the title of a page -/

/-- The instructions of a compiled pattern, as far as the title pattern needs them: a
literal byte, `.*?` (as few characters other than newline as possible) and the two ends of
the one capture group. -/
inductive Inst where
  | byte (c : Nat)
  | lazyAny
  | groupStart
  | groupEnd
  deriving DecidableEq, Repr

/-- The loop of `.*?`: first the continuation, and only when it fails one more character,
which is any but the newline. -/
def lazyStar {α : Type} (k : GoString → Option α) : GoString → Option α
  | [] => k []
  | c :: s =>
    match k (c :: s) with
    | some r => some r
    | none => if c = 10 then none else lazyStar k s

/-- A backtracking match of a pattern at the start of `s`. A position of the input is kept
as the input that remains there; `caps` holds the two ends of the group. The result is the
two ends of the group and the end of the match. -/
def run : List Inst → GoString → GoString × GoString →
    Option (GoString × GoString × GoString)
  | [], s, caps => some (caps.1, caps.2, s)
  | .byte c :: prog, s, caps =>
    match s with
    | [] => none
    | x :: s1 => if x = c then run prog s1 caps else none
  | .lazyAny :: prog, s, caps => lazyStar (fun s1 => run prog s1 caps) s
  | .groupStart :: prog, s, caps => run prog s (s, caps.2)
  | .groupEnd :: prog, s, caps => run prog s (caps.1, s)

/-- The strings of a match: the matched text and the text of the group, cut out of the
input `s` the match starts at. -/
def submatches (s : GoString) (r : GoString × GoString × GoString) : List GoString :=
  [s.take (s.length - r.2.2.length), r.1.take (r.1.length - r.2.1.length)]

/-- Go `(*Regexp).FindStringSubmatch` for a pattern with one group: the leftmost match,
as the matched text and the text of the group; `none` is Go's `nil`. -/
def FindStringSubmatch (prog : List Inst) : GoString → Option (List GoString)
  | [] => (run prog [] ([], [])).map (submatches [])
  | x :: s =>
    match run prog (x :: s) (x :: s, x :: s) with
    | some r => some (submatches (x :: s) r)
    | none => FindStringSubmatch prog s

/-- The instructions of a literal. -/
def literal (l : GoString) : List Inst := l.map Inst.byte

/-- The pattern of `getPageTitle`, `<title.*?>(.*?)</title>`, compiled. -/
def titleRegex : List Inst :=
  literal (str "<title") ++ [.lazyAny, .byte 62, .groupStart, .lazyAny, .groupEnd] ++
    literal (str "</title>")

/-- The errors the functions of `core/core.go` return. -/
inductive Error where
  | url (e : UrlError)
  | contextCanceled
  | network (msg : GoString)
  | noTitle
  deriving DecidableEq, Repr

/-- The end of `getPageTitle`, from `respBody` on: the title of a response body. -/
def extractTitle (respBody : GoString) : Except Error GoString :=
  let titleMatch := (FindStringSubmatch titleRegex respBody).getD []
  if titleMatch.length < 2 then .error .noTitle
  else .ok (titleMatch.getD 1 [])

/-- `getPageTitle` of `core/core.go`; `httpGet` stands for `http.Get` followed by reading
the whole body, and gives the body or the error of either step. -/
def getPageTitle (httpGet : GoString → Except Error GoString) (url : GoString) :
    Except Error GoString :=
  match httpGet url with
  | .error e => .error e
  | .ok respBody => extractTitle respBody

/-- A body holds a title element that the pattern can match: `<title`, then `a`, then `>`,
then `t`, then `</title>`, in lower case, with no newline in `a` or `t`. -/
def TitleAt (body pre a t post : GoString) : Prop :=
  body = pre ++ (str "<title" ++ (a ++ (62 :: (t ++ (str "</title>" ++ post))))) ∧
    10 ∉ a ∧ 10 ∉ t

/-! ## The worker loop `fetchURL` -/

/-- The string `fmt.Sprintf("- [%s](%s)", title, finalURL)`. -/
def sprintfLink (title finalURL : GoString) : GoString :=
  str "- [" ++ title ++ str "](" ++ finalURL ++ str ")"

/-- The body of the loop of `fetchURL` for one received `url`: the shared list
`friendlyURLs` afterwards. Either error leads to `continue` and leaves the list as it is;
the append happens under the mutex. -/
def processItem (otherHost : GoString → GoString → Except UrlError GoString)
    (httpGet : GoString → Except Error GoString) (url : GoString)
    (friendlyURLs : List GoString) : List GoString :=
  match getFinalURL otherHost url with
  | .error _ => friendlyURLs
  | .ok finalURL =>
    match getPageTitle httpGet finalURL with
    | .error _ => friendlyURLs
    | .ok title => friendlyURLs ++ [sprintfLink title finalURL]

/-- What one `select` of the worker loop observes: an item of the queue, the queue closed
and drained, or the context done. -/
inductive Select where
  | item (url : GoString)
  | closed
  | done
  deriving DecidableEq, Repr

/-- `fetchURL` of `core/core.go`, run on the outcomes of its successive `select`s: the
shared list afterwards and the return value, `some none` for `nil`, `some (some e)` for
the error `e`, and `none` while the worker still waits in its `select`. -/
def fetchURL (otherHost : GoString → GoString → Except UrlError GoString)
    (httpGet : GoString → Except Error GoString) :
    List Select → List GoString → List GoString × Option (Option Error)
  | [], friendlyURLs => (friendlyURLs, none)
  | .item url :: evs, friendlyURLs =>
    fetchURL otherHost httpGet evs (processItem otherHost httpGet url friendlyURLs)
  | .closed :: _, friendlyURLs => (friendlyURLs, some none)
  | .done :: _, friendlyURLs => (friendlyURLs, some (some .contextCanceled))

/-- The link of a URL in the words of the specification: `- [title](resolvedURL)` when the
URL both resolves and fetches, nothing otherwise. -/
def linkOf (otherHost : GoString → GoString → Except UrlError GoString)
    (httpGet : GoString → Except Error GoString) (url : GoString) : Option GoString :=
  match getFinalURL otherHost url with
  | .error _ => none
  | .ok resolved =>
    match getPageTitle httpGet resolved with
    | .error _ => none
    | .ok title => some (str "- [" ++ title ++ str "](" ++ resolved ++ str ")")

/-! ## The pool `fetchURLsConcurrently` -/

/-- A worker goroutine: waiting in its `select`, holding a received item, or returned. -/
inductive Worker where
  | idle
  | busy (url : GoString)
  | exited (err : Option Error)
  deriving DecidableEq, Repr

/-- The goroutine of `fetchURLsConcurrently` itself: in the loop over `urls` with the items
not yet sent, in `wg.Wait` after `close(urlChan)`, or returned with its result. -/
inductive Feeder where
  | feeding (rest : List GoString)
  | waiting
  | returned (result : List GoString)
  deriving DecidableEq, Repr

/-- The shared state of one call of `fetchURLsConcurrently`: the buffer of `urlChan` and
whether it is closed, whether `ctx` is done, the first error of the errgroup, the five
workers and the list `friendlyURLs`. -/
structure Pool where
  feeder : Feeder
  urlChan : List GoString
  closed : Bool
  cancelled : Bool
  groupErr : Option Error
  workers : List Worker
  friendlyURLs : List GoString
  deriving DecidableEq, Repr

/-- The state after the five `g.Go` calls. -/
def Pool.init (urls : List GoString) : Pool :=
  { feeder := .feeding urls, urlChan := [], closed := false, cancelled := false,
    groupErr := none, workers := List.replicate 5 .idle, friendlyURLs := [] }

/-- The steps the scheduler chooses between. `send`, `feederDone` are the two cases of the
feeder's `select`, `close` is `close(urlChan)`, `wait` the return of `wg.Wait` and `g.Wait`;
for worker `i`, `recv`, `recvClosed` and `workerDone` are the outcomes of its `select` and
`process` is the loop body for the item it holds. -/
inductive Action where
  | send
  | feederDone
  | close
  | wait
  | recv (i : Nat)
  | recvClosed (i : Nat)
  | workerDone (i : Nat)
  | process (i : Nat)
  deriving DecidableEq, Repr

/-- Whether a worker has returned. -/
def Worker.isExited : Worker → Bool
  | .exited _ => true
  | _ => false

/-- One step of the pool, `none` when the step cannot be taken in this state. The channel
has room for five items; a worker that returns an error makes the errgroup record the
first one and cancel `ctx`; `g.Wait` cancels `ctx` when all workers have returned. -/
def step (otherHost : GoString → GoString → Except UrlError GoString)
    (httpGet : GoString → Except Error GoString) (s : Pool) : Action → Option Pool
  | .send =>
    match s.feeder with
    | .feeding (url :: rest) =>
      if s.urlChan.length < 5 then
        some { s with feeder := .feeding rest, urlChan := s.urlChan ++ [url] }
      else none
    | _ => none
  | .feederDone =>
    match s.feeder with
    | .feeding (_ :: _) =>
      if s.cancelled then some { s with feeder := .returned s.friendlyURLs } else none
    | _ => none
  | .close =>
    match s.feeder with
    | .feeding [] => some { s with feeder := .waiting, closed := true }
    | _ => none
  | .wait =>
    match s.feeder with
    | .waiting =>
      if s.workers.all Worker.isExited then
        some { s with feeder := .returned s.friendlyURLs, cancelled := true }
      else none
    | _ => none
  | .recv i =>
    match s.workers[i]?, s.urlChan with
    | some .idle, url :: rest =>
      some { s with workers := s.workers.set i (.busy url), urlChan := rest }
    | _, _ => none
  | .recvClosed i =>
    match s.workers[i]?, s.urlChan with
    | some .idle, [] =>
      if s.closed then some { s with workers := s.workers.set i (.exited none) } else none
    | _, _ => none
  | .workerDone i =>
    match s.workers[i]? with
    | some .idle =>
      if s.cancelled then
        some { s with
          workers := s.workers.set i (.exited (some .contextCanceled)),
          groupErr := match s.groupErr with
            | some e => some e
            | none => some .contextCanceled,
          cancelled := true }
      else none
    | _ => none
  | .process i =>
    match s.workers[i]? with
    | some (.busy url) =>
      some { s with
        workers := s.workers.set i .idle,
        friendlyURLs := processItem otherHost httpGet url s.friendlyURLs }
    | _ => none

/-- A run of the pool under a schedule; `none` when a step of the schedule cannot be
taken. -/
def exec (otherHost : GoString → GoString → Except UrlError GoString)
    (httpGet : GoString → Except Error GoString) : Pool → List Action → Option Pool
  | s, [] => some s
  | s, a :: as =>
    match step otherHost httpGet s a with
    | none => none
    | some s1 => exec otherHost httpGet s1 as

/-- A run of the pool under a schedule in which every step comes with what a fetch gives at
that moment: the network may answer differently from one step to the next, so that two
requests for one URL need not have the same outcome. `none` when a step of the schedule
cannot be taken. -/
def runPool (otherHost : GoString → GoString → Except UrlError GoString) :
    Pool → List ((GoString → Except Error GoString) × Action) → Option Pool
  | s, [] => some s
  | s, x :: rest =>
    match step otherHost x.1 s x.2 with
    | none => none
    | some s1 => runPool otherHost s1 rest

/-- `fetchURLsConcurrently` of `core/core.go` under a schedule of its goroutines and of the
network: the list it returns, or `none` when the schedule cannot be followed or ends
before the return. -/
def fetchURLsConcurrently (otherHost : GoString → GoString → Except UrlError GoString)
    (urls : List GoString) (sched : List ((GoString → Except Error GoString) × Action)) :
    Option (List GoString) :=
  match runPool otherHost (Pool.init urls) sched with
  | none => none
  | some s =>
    match s.feeder with
    | .returned result => some result
    | _ => none

/-- The items the workers hold. -/
def inflight : List Worker → List GoString
  | [] => []
  | .busy url :: ws => url :: inflight ws
  | _ :: ws => inflight ws

/-- The items the feeder has not sent yet. -/
def pendingOf : Feeder → List GoString
  | .feeding rest => rest
  | _ => []

/-- The items pushed to the queue during a run, in order. -/
def pushed (otherHost : GoString → GoString → Except UrlError GoString) :
    Pool → List ((GoString → Except Error GoString) × Action) → List GoString
  | _, [] => []
  | s, x :: rest =>
    match step otherHost x.1 s x.2 with
    | none => []
    | some s1 =>
      match x.2, s.feeder with
      | .send, .feeding (url :: _) => url :: pushed otherHost s1 rest
      | _, _ => pushed otherHost s1 rest

/-- The items pulled from the queue during a run, each with the worker that pulled it. -/
def pulled (otherHost : GoString → GoString → Except UrlError GoString) :
    Pool → List ((GoString → Except Error GoString) × Action) → List (Nat × GoString)
  | _, [] => []
  | s, x :: rest =>
    match step otherHost x.1 s x.2 with
    | none => []
    | some s1 =>
      match x.2, s.urlChan with
      | .recv i, url :: _ => (i, url) :: pulled otherHost s1 rest
      | _, _ => pulled otherHost s1 rest

/-- The items whose loop body ran during a run, in the order of completion, each with the
link it gave under the fetch of that step: `none` for an item that failed to resolve or to
fetch. -/
def processed (otherHost : GoString → GoString → Except UrlError GoString) :
    Pool → List ((GoString → Except Error GoString) × Action) →
      List (GoString × Option GoString)
  | _, [] => []
  | s, x :: rest =>
    match step otherHost x.1 s x.2 with
    | none => []
    | some s1 =>
      match x.2 with
      | .process i =>
        match s.workers[i]? with
        | some (.busy url) => (url, linkOf otherHost x.1 url) :: processed otherHost s1 rest
        | _ => processed otherHost s1 rest
      | _ => processed otherHost s1 rest

/-- A bound on the number of steps left: every step lowers it. -/
def measure (s : Pool) : Nat :=
  3 * (pendingOf s.feeder).length + 2 * s.urlChan.length + (inflight s.workers).length +
    (s.workers.filter fun w => !w.isExited).length +
    (match s.feeder with
      | .feeding _ => 2
      | .waiting => 1
      | .returned _ => 0)

/-- A fetch whose request for `https://a.example` ends in a context-cancellation error and
whose every other request gives a page with the title `B`. -/
def canceledFetch (url : GoString) : Except Error GoString :=
  if url = str "https://a.example" then .error .contextCanceled
  else .ok (str "<title>B</title>")

/-- The invariant of the pool: five workers; `ctx` is done only after the return; no worker
has returned an error; the queue is open exactly while the feeder is in its loop; once a
worker has returned the queue is closed and empty; and a result is the shared list with
every worker returned. -/
structure Inv (s : Pool) : Prop where
  nworkers : s.workers.length = 5
  alive : s.cancelled = true → ∃ res, s.feeder = .returned res
  noErr : ∀ e, Worker.exited (some e) ∉ s.workers
  groupErr : s.groupErr = none
  opened : s.closed = false ↔ ∃ p, s.feeder = .feeding p
  drained : (∃ w ∈ s.workers, w.isExited = true) → s.urlChan = [] ∧ s.closed = true
  final : ∀ res, s.feeder = .returned res →
    res = s.friendlyURLs ∧ s.workers.all Worker.isExited = true

/-- A fetch that fails for three URLs and gives a page with the title `T` for the rest. -/
def sampleFetch (url : GoString) : Except Error GoString :=
  if url ∈ [str "http://h/3", str "http://h/7", str "http://h/11"] then
    .error (.network (str "timeout"))
  else .ok (str "<html><title>T</title></html>")

/-- Twelve candidate URLs. -/
def sampleUrls : List GoString :=
  ["http://h/1", "http://h/2", "http://h/3", "http://h/4", "http://h/5", "http://h/6",
    "http://h/7", "http://h/8", "http://h/9", "http://h/10", "http://h/11",
    "http://h/12"].map str

/-- A schedule for the twelve URLs under `sampleFetch`: the queue is filled, the workers
each take an item and finish in the reverse order, and so on until the queue is closed and
drained. -/
def sampleSchedule : List ((GoString → Except Error GoString) × Action) :=
  ([.send, .send, .send, .send, .send, .recv 0, .recv 1, .recv 2, .recv 3, .recv 4,
    .process 4, .process 3, .process 2, .process 1, .process 0,
    .send, .send, .send, .send, .send, .recv 0, .recv 1, .recv 2, .recv 3, .recv 4,
    .process 4, .process 3, .process 2, .process 1, .process 0,
    .send, .send, .recv 0, .recv 1, .process 1, .process 0,
    .close, .recvClosed 0, .recvClosed 1, .recvClosed 2, .recvClosed 3, .recvClosed 4,
    .wait] : List Action).map fun a => (sampleFetch, a)

/-- The nine links of the sample run, in the order of completion. -/
def sampleResult : List GoString :=
  ["- [T](http://h/5)", "- [T](http://h/4)", "- [T](http://h/2)", "- [T](http://h/1)",
    "- [T](http://h/10)", "- [T](http://h/9)", "- [T](http://h/8)", "- [T](http://h/6)",
    "- [T](http://h/12)"].map str

/-- The state at the end of the sample run. -/
def sampleFinal : Pool :=
  { feeder := .returned sampleResult, urlChan := [], closed := true, cancelled := true,
    groupErr := none, workers := List.replicate 5 (.exited none),
    friendlyURLs := sampleResult }

/-- A fetch that fails. -/
def failingFetch (_ : GoString) : Except Error GoString :=
  .error (.network (str "reset"))

/-- A schedule for an input that holds one URL twice: the fetch for the first copy gives a
page, the fetch for the second copy fails. -/
def twiceSchedule : List ((GoString → Except Error GoString) × Action) :=
  [(sampleFetch, .send), (sampleFetch, .send), (sampleFetch, .recv 0), (sampleFetch, .recv 1),
    (sampleFetch, .process 0), (failingFetch, .process 1), (sampleFetch, .close),
    (sampleFetch, .recvClosed 0), (sampleFetch, .recvClosed 1), (sampleFetch, .recvClosed 2),
    (sampleFetch, .recvClosed 3), (sampleFetch, .recvClosed 4), (sampleFetch, .wait)]

/-- A wrapped URL whose query is `q=x` followed by 10000 times `&`: 10001 pieces. -/
def longQueryURL : GoString :=
  str "https://www.google.com/url?q=x" ++ List.replicate 10000 38

/-! # Theorems -/

/-! ## Lemmas on strings -/

theorem cut_nil (b : Nat) : cut [b] [] = ([], [], false) := by
  simp [cut, hasPrefix]

theorem cut_cons (b c : Nat) (s : GoString) :
    cut [b] (c :: s) =
      if c = b then ([], s, true)
      else (c :: (cut [b] s).1, (cut [b] s).2.1, (cut [b] s).2.2) := by
  cases s <;> simp [cut, hasPrefix]

theorem cut_after_length_le (b : Nat) (q : GoString) :
    (cut [b] q).2.1.length ≤ q.length := by
  induction q with
  | nil => simp [cut_nil]
  | cons c s ih =>
    rw [cut_cons]
    split
    · simp
    · simpa using Nat.le_succ_of_le ih

theorem cut_after_length_lt (b : Nat) (q : GoString) (h : q ≠ []) :
    (cut [b] q).2.1.length < q.length := by
  cases q with
  | nil => exact absurd rfl h
  | cons c s =>
    rw [cut_cons]
    split
    · simp
    · simpa using Nat.lt_succ_of_le (cut_after_length_le b s)

theorem queryParam_nil : queryParam [] = none := by
  simp [queryParam, contains, hasPrefix]

theorem splitOn_cons (b c : Nat) (s : GoString) :
    splitOn b (c :: s) =
      if (cut [b] (c :: s)).2.2 = true then
        (cut [b] (c :: s)).1 :: splitOn b (cut [b] (c :: s)).2.1
      else [(cut [b] (c :: s)).1] := by
  induction s generalizing c with
  | nil =>
    by_cases h : c = b <;> simp [splitOn, cut_cons, cut_nil, h]
  | cons d s ih =>
    by_cases h : c = b
    · simp [splitOn, cut_cons, h]
    · have ih' := ih d
      rw [cut_cons b c, if_neg h, splitOn, if_neg h, ih']
      by_cases hf : (cut [b] (d :: s)).2.2 = true
      · simp [hf]
      · simp [hf]

/-- The parameters of a non-empty query are the parameter of its first piece, if it is
one, followed by the parameters of what follows the first `&`. -/
theorem queryParams_cut (q : GoString) (h : q ≠ []) :
    queryParams q = (queryParam (cut [38] q).1).toList ++ queryParams (cut [38] q).2.1 := by
  cases q with
  | nil => exact absurd rfl h
  | cons c s =>
    unfold queryParams
    rw [splitOn_cons]
    by_cases hf : (cut [38] (c :: s)).2.2 = true
    · rw [if_pos hf]
      cases hq : queryParam (cut [38] (c :: s)).1 <;> simp [List.filterMap_cons, hq]
    · rw [if_neg hf]
      have hnil : (cut [38] (c :: s)).2.1 = [] := by
        clear h
        induction s generalizing c with
        | nil =>
          by_cases hc : c = 38 <;> simp [cut_cons, cut_nil, hc] at hf ⊢
        | cons d s ih =>
          by_cases hc : c = 38
          · simp [cut_cons, hc] at hf
          · rw [cut_cons, if_neg hc] at hf ⊢
            exact ih d hf
      rw [hnil]
      cases hq : queryParam (cut [38] (c :: s)).1 <;>
        simp [List.filterMap_cons, hq, splitOn, queryParam_nil]

/-! ## Lemmas on `Values` and `parseQuery` -/

theorem lookup_add (k v key : GoString) (m : Values) :
    (Values.add k v m).lookup key =
      if k = key then some ((m.lookup key).getD [] ++ [v]) else m.lookup key := by
  induction m with
  | nil =>
    by_cases h : k = key
    · subst h; simp [Values.add, List.lookup]
    · have hb : (key == k) = false := by simpa using fun e => h e.symm
      simp [Values.add, List.lookup, h, hb]
  | cons kv m ih =>
    obtain ⟨k', vs⟩ := kv
    by_cases hk : k' = k
    · subst hk
      by_cases h : k' = key
      · subst h; simp [Values.add, List.lookup]
      · have hb : (key == k') = false := by simpa using fun e => h e.symm
        simp [Values.add, List.lookup, h, hb]
    · by_cases h : k = key
      · subst h
        have hb : (k == k') = false := by simpa using fun e => hk e.symm
        simp [Values.add, List.lookup, hk, hb, ih]
      · by_cases h2 : key = k'
        · subst h2; simp [Values.add, List.lookup, hk, h]
        · have hb : (key == k') = false := by simpa using h2
          simp [Values.add, List.lookup, hk, h, hb, ih]

theorem lookup_foldl_add (key : GoString) (ps : List (GoString × GoString)) (m : Values) :
    (ps.foldl (fun m p => Values.add p.1 p.2 m) m).lookup key =
      if valuesOf key ps = [] then m.lookup key
      else some ((m.lookup key).getD [] ++ valuesOf key ps) := by
  induction ps generalizing m with
  | nil => simp [valuesOf]
  | cons p ps ih =>
    rw [List.foldl_cons, ih, lookup_add]
    by_cases h : p.1 = key
    · by_cases h2 : valuesOf key ps = []
      · have h3 : valuesOf key (p :: ps) = [p.2] := by
          have : valuesOf key (p :: ps) = p.2 :: valuesOf key ps := by simp [valuesOf, h]
          rw [this, h2]
        rw [if_pos h2, h3, if_pos h]
        simp
      · have h3 : valuesOf key (p :: ps) ≠ [] := by simp [valuesOf, h]
        rw [if_neg h2, if_neg h3, if_pos h]
        simp [valuesOf, h]
    · have h3 : valuesOf key (p :: ps) = valuesOf key ps := by simp [valuesOf, h]
      rw [h3, if_neg h]

theorem valuesOf_head (key : GoString) (ps : List (GoString × GoString)) :
    (match valuesOf key ps with
      | x :: _ => x
      | [] => []) =
    (match ps.find? (fun p => p.1 = key) with
      | some p => p.2
      | none => []) := by
  induction ps with
  | nil => simp [valuesOf]
  | cons p ps ih =>
    by_cases h : p.1 = key
    · simp [valuesOf, h]
    · have h3 : valuesOf key (p :: ps) = valuesOf key ps := by simp [valuesOf, h]
      rw [h3, ih]
      simp [List.find?_cons, h]

theorem hexValue_eq (c : Nat) : hexValue c = if ishex c = true then some (unhex c) else none := by
  unfold hexValue ishex unhex
  by_cases h1 : 48 ≤ c ∧ c ≤ 57
  · simp [h1]
  · by_cases h2 : 65 ≤ c ∧ c ≤ 70
    · have h3 : ¬ (97 ≤ c ∧ c ≤ 102) := by omega
      have h4 : c - 55 = c - 65 + 10 := by omega
      simp [h1, h2, h3, h4]
    · by_cases h3 : 97 ≤ c ∧ c ≤ 102
      · have h4 : c - 87 = c - 97 + 10 := by omega
        simp [h1, h2, h3, h4]
      · simp [h1, h2, h3]

theorem scanQ_escape (a b : Nat) (rest : GoString) (n : Nat) (hp : Bool) :
    unescapeScan .encodeQueryComponent (37 :: a :: b :: rest) n hp =
      if ishex a = true ∧ ishex b = true then
        unescapeScan .encodeQueryComponent rest (n + 1) hp
      else .error (.escapeError [37, a, b]) := by
  rw [unescapeScan]
  cases ha : ishex a <;> cases hb : ishex b <;> simp

theorem scanQ_plus (s : GoString) (n : Nat) (hp : Bool) :
    unescapeScan .encodeQueryComponent (43 :: s) n hp =
      unescapeScan .encodeQueryComponent s n true := by
  rcases s with _ | ⟨a, _ | ⟨b, rest⟩⟩ <;> simp [unescapeScan]

theorem scanQ_other (c : Nat) (s : GoString) (n : Nat) (hp : Bool) (h1 : c ≠ 37)
    (h2 : c ≠ 43) :
    unescapeScan .encodeQueryComponent (c :: s) n hp =
      unescapeScan .encodeQueryComponent s n hp := by
  rcases s with _ | ⟨a, _ | ⟨b, rest⟩⟩ <;> simp [unescapeScan, h1, h2]

theorem percentDecode_escape (a b : Nat) (rest : GoString) :
    percentDecode (37 :: a :: b :: rest) =
      if ishex a = true ∧ ishex b = true then
        (percentDecode rest).map fun t => (unhex a * 16 + unhex b) :: t
      else none := by
  rw [percentDecode]
  simp only [if_true, hexValue_eq]
  cases ha : ishex a <;> cases hb : ishex b <;> cases percentDecode rest <;> simp

theorem percentDecode_plus (s : GoString) :
    percentDecode (43 :: s) = (percentDecode s).map fun t => 32 :: t := by
  rcases s with _ | ⟨a, _ | ⟨b, rest⟩⟩ <;> simp [percentDecode]

theorem percentDecode_other (c : Nat) (s : GoString) (h1 : c ≠ 37) (h2 : c ≠ 43) :
    percentDecode (c :: s) = (percentDecode s).map fun t => c :: t := by
  rcases s with _ | ⟨a, _ | ⟨b, rest⟩⟩ <;> simp [percentDecode, h1, h2]

theorem unescapeWrite_escape (a b : Nat) (rest : GoString) :
    unescapeWrite .encodeQueryComponent (37 :: a :: b :: rest) =
      (unhex a * 16 + unhex b) :: unescapeWrite .encodeQueryComponent rest := by
  simp [unescapeWrite]

theorem unescapeWrite_plus (s : GoString) :
    unescapeWrite .encodeQueryComponent (43 :: s) =
      32 :: unescapeWrite .encodeQueryComponent s := by
  rcases s with _ | ⟨a, _ | ⟨b, rest⟩⟩ <;> simp [unescapeWrite]

theorem unescapeWrite_other (c : Nat) (s : GoString) (h1 : c ≠ 37) (h2 : c ≠ 43) :
    unescapeWrite .encodeQueryComponent (c :: s) =
      c :: unescapeWrite .encodeQueryComponent s := by
  rcases s with _ | ⟨a, _ | ⟨b, rest⟩⟩ <;> simp [unescapeWrite, h1, h2]

theorem unescapeScan_query (k : Nat) :
    ∀ (s : GoString), s.length ≤ k → ∀ (n : Nat) (hp : Bool),
    (∀ e, unescapeScan .encodeQueryComponent s n hp = .error e → percentDecode s = none) ∧
    (∀ n1 hp1, unescapeScan .encodeQueryComponent s n hp = .ok (n1, hp1) →
      percentDecode s = some (unescapeWrite .encodeQueryComponent s) ∧ n ≤ n1 ∧
      (hp = true → hp1 = true) ∧
      (n1 = n → hp1 = false → unescapeWrite .encodeQueryComponent s = s)) := by
  have hnil : ∀ (n : Nat) (hp : Bool),
      (∀ e, unescapeScan .encodeQueryComponent [] n hp = .error e → percentDecode [] = none) ∧
      (∀ n1 hp1, unescapeScan .encodeQueryComponent [] n hp = .ok (n1, hp1) →
        percentDecode [] = some (unescapeWrite .encodeQueryComponent []) ∧ n ≤ n1 ∧
        (hp = true → hp1 = true) ∧
        (n1 = n → hp1 = false → unescapeWrite .encodeQueryComponent [] = [])) := by
    intro n hp
    constructor
    · intro e he
      simp [unescapeScan] at he
    · intro n1 hp1 h1
      simp only [unescapeScan, Except.ok.injEq, Prod.mk.injEq] at h1
      refine ⟨rfl, by omega, fun h => by rw [← h1.2]; exact h, fun _ _ => rfl⟩
  induction k with
  | zero =>
    intro s hs n hp
    have : s = [] := List.length_eq_zero.mp (Nat.le_zero.mp hs)
    subst this
    exact hnil n hp
  | succ k ih =>
    intro s hs n hp
    cases s with
    | nil => exact hnil n hp
    | cons c s =>
      by_cases hc : c = 37
      · subst hc
        cases s with
        | nil =>
          constructor
          · intro _ _; simp [percentDecode]
          · intro n1 hp1 h1; simp [unescapeScan] at h1
        | cons a s =>
          cases s with
          | nil =>
            constructor
            · intro _ _; simp [percentDecode]
            · intro n1 hp1 h1; simp [unescapeScan] at h1
          | cons b rest =>
            have hl : rest.length ≤ k := by simp at hs; omega
            obtain ⟨ihe, iho⟩ := ih rest hl (n + 1) hp
            rw [scanQ_escape, percentDecode_escape]
            by_cases hab : ishex a = true ∧ ishex b = true
            · rw [if_pos hab, if_pos hab]
              constructor
              · intro e he
                rw [ihe e he]; rfl
              · intro n1 hp1 h1
                obtain ⟨h2, h3, h4, _⟩ := iho n1 hp1 h1
                rw [h2, unescapeWrite_escape]
                refine ⟨rfl, by omega, h4, ?_⟩
                intro h5
                omega
            · rw [if_neg hab, if_neg hab]
              constructor
              · intro _ _; rfl
              · intro n1 hp1 h1; cases h1
      · by_cases hplus : c = 43
        · subst hplus
          have hl : s.length ≤ k := by simp at hs; omega
          obtain ⟨ihe, iho⟩ := ih s hl n true
          rw [scanQ_plus, percentDecode_plus, unescapeWrite_plus]
          constructor
          · intro e he
            rw [ihe e he]; rfl
          · intro n1 hp1 h1
            obtain ⟨h2, h3, h4, _⟩ := iho n1 hp1 h1
            refine ⟨by rw [h2]; rfl, h3, fun _ => h4 rfl, ?_⟩
            intro _ h6
            rw [h4 rfl] at h6
            cases h6
        · have hl : s.length ≤ k := by simp at hs; omega
          obtain ⟨ihe, iho⟩ := ih s hl n hp
          rw [scanQ_other c s n hp hc hplus, percentDecode_other c s hc hplus,
            unescapeWrite_other c s hc hplus]
          constructor
          · intro e he
            rw [ihe e he]; rfl
          · intro n1 hp1 h1
            obtain ⟨h2, h3, h4, h5⟩ := iho n1 hp1 h1
            refine ⟨by rw [h2]; rfl, h3, h4, ?_⟩
            intro h6 h7
            rw [h5 h6 h7]

/-- The two passes of `url.QueryUnescape` decode as the specification words it, and fail
exactly on a malformed escape. -/
theorem QueryUnescape_eq (s : GoString) :
    (match QueryUnescape s with
      | .ok t => some t
      | .error _ => none) = percentDecode s := by
  unfold QueryUnescape unescape
  obtain ⟨he, ho⟩ := unescapeScan_query s.length s (Nat.le_refl _) 0 false
  cases h : unescapeScan .encodeQueryComponent s 0 false with
  | error e => simp [he e h]
  | ok r =>
    obtain ⟨n1, hp1⟩ := r
    obtain ⟨h2, _, _, h5⟩ := ho n1 hp1 h
    simp only []
    by_cases hz : n1 = 0 ∧ hp1 = false
    · rw [if_pos hz, h2, h5 hz.1 hz.2]
    · rw [if_neg hz, h2]

/-- With fuel for every byte, the loop of `parseQuery` records the parameters of the query
in order. -/
theorem parseQueryLoop_eq (fuel : Nat) (m : Values) (q : GoString) (h : q.length ≤ fuel) :
    parseQueryLoop fuel m q = (queryParams q).foldl (fun m p => Values.add p.1 p.2 m) m := by
  induction fuel generalizing m q with
  | zero =>
    have hq : q = [] := List.length_eq_zero.mp (Nat.le_zero.mp h)
    subst hq
    simp [parseQueryLoop, queryParams, splitOn, queryParam_nil]
  | succ fuel ih =>
    by_cases hq : q = []
    · subst hq
      simp [parseQueryLoop, queryParams, splitOn, queryParam_nil]
    · have hlt := cut_after_length_lt 38 q hq
      have hle : (cut [38] q).2.1.length ≤ fuel := by omega
      rw [queryParams_cut q hq, parseQueryLoop, if_neg hq]
      simp only []
      by_cases h1 : contains (cut [38] q).1 [59] = true
      · simp [h1, queryParam, ih _ _ hle]
      · by_cases h2 : (cut [38] q).1 = []
        · simp [h2, queryParam_nil, ih _ _ hle, contains, hasPrefix]
        · simp only [h1, h2, queryParam, if_false]
          rw [← QueryUnescape_eq (cut [61] (cut [38] q).1).1,
            ← QueryUnescape_eq (cut [61] (cut [38] q).1).2.1]
          cases hk : QueryUnescape (cut [61] (cut [38] q).1).1 with
          | error e => simp [ih _ _ hle]
          | ok k =>
            cases hv : QueryUnescape (cut [61] (cut [38] q).1).2.1 with
            | error e => simp [ih _ _ hle]
            | ok v => simp [ih _ _ hle]

theorem count_cons_byte (b c : Nat) (s : GoString) :
    count (c :: s) [b] = (if c = b then 1 else 0) + count s [b] := by
  by_cases h : c = b <;> cases s <;> simp [count, countFrom, hasPrefix, h]

/-- The pieces of a string between the occurrences of a byte are one more than the
occurrences. -/
theorem splitOn_length (b : Nat) (s : GoString) : (splitOn b s).length = count s [b] + 1 := by
  induction s with
  | nil => simp [splitOn, count, countFrom]
  | cons c s ih =>
    rw [count_cons_byte, splitOn]
    by_cases h : c = b
    · simp [h, ih]; omega
    · rw [if_neg h, if_neg h]
      cases hs : splitOn b s with
      | nil => rw [hs] at ih; simp at ih
      | cons x xs => rw [hs] at ih; simpa using ih

/-- The lookup `Query().Get(key)` of the code is the first parameter named `key`, unless
the query has more than `defaultMaxParams` pieces: then it is the empty string. -/
theorem Query_Get (u : URL) (key : GoString) :
    (u.Query).Get key =
      if defaultMaxParams < (splitOn 38 u.RawQuery).length then []
      else firstParam key u.RawQuery := by
  unfold URL.Query parseQuery
  rw [splitOn_length]
  split
  · simp [Values.Get, List.lookup]
  · unfold Values.Get firstParam
    simp only []
    rw [parseQueryLoop_eq _ _ _ (Nat.le_refl _), lookup_foldl_add, ← valuesOf_head]
    cases hv : valuesOf key (queryParams u.RawQuery) <;> simp [List.lookup]

/-! ## The raw query that `url.Parse` records -/

theorem cut_append_of_not_mem (b : Nat) (pre s : GoString) (h : b ∉ pre) :
    (cut [b] (pre ++ s)).2.1 = (cut [b] s).2.1 := by
  induction pre with
  | nil => rfl
  | cons c pre ih =>
    have hc : ¬ c = b := fun e => h (by simp [e])
    have hp : b ∉ pre := fun e => h (by simp [e])
    rw [List.cons_append, cut_cons, if_neg hc]
    exact ih hp

theorem getSchemeLoop_query (raw : GoString) (rest : GoString) :
    ∀ (i : Nat) (pre sch rest0 : GoString), raw = pre ++ rest → 63 ∉ pre →
      getSchemeLoop raw i rest = .ok (sch, rest0) →
      (cut [63] rest0).2.1 = (cut [63] raw).2.1 := by
  induction rest with
  | nil =>
    intro i pre sch rest0 _ _ h
    simp only [getSchemeLoop, Except.ok.injEq, Prod.mk.injEq] at h
    rw [← h.2]
  | cons c rest ih =>
    intro i pre sch rest0 hraw hpre h
    have hraw' : raw = (pre ++ [c]) ++ rest := by simp [hraw]
    have hmem : c ≠ 63 → 63 ∉ pre ++ [c] := by
      intro hc hm
      rcases List.mem_append.mp hm with hm | hm
      · exact hpre hm
      · exact hc (List.mem_singleton.mp hm).symm
    unfold getSchemeLoop at h
    split at h
    · rename_i ha
      exact ih (i + 1) (pre ++ [c]) sch rest0 hraw' (hmem (by omega)) h
    · split at h
      · rename_i hd
        split at h
        · simp only [Except.ok.injEq, Prod.mk.injEq] at h
          rw [← h.2]
        · exact ih (i + 1) (pre ++ [c]) sch rest0 hraw' (hmem (by omega)) h
      · split at h
        · rename_i hc
          split at h
          · cases h
          · simp only [Except.ok.injEq, Prod.mk.injEq] at h
            rw [← h.2, hraw']
            exact (cut_append_of_not_mem 63 (pre ++ [c]) rest (hmem (by omega))).symm
        · simp only [Except.ok.injEq, Prod.mk.injEq] at h
          rw [← h.2]

theorem count_cons (c : Nat) (s : GoString) :
    count (c :: s) [63] = (if c = 63 then 1 else 0) + count s [63] := by
  by_cases h : c = 63 <;> cases s <;> simp [count, countFrom, hasPrefix, h]

theorem hasSuffix_cons (c d : Nat) (s : GoString) :
    hasSuffix (c :: d :: s) [63] = hasSuffix (d :: s) [63] := by
  unfold hasSuffix
  have h : (d :: s).reverse ≠ [] := by simp
  cases hr : (d :: s).reverse with
  | nil => exact absurd hr h
  | cons e t =>
    have : (c :: d :: s).reverse = e :: (t ++ [c]) := by
      rw [List.reverse_cons, hr]; rfl
    rw [this]
    simp [hasPrefix]

theorem count_pos_of_hasSuffix (s : GoString) (h : hasSuffix s [63] = true) :
    1 ≤ count s [63] := by
  induction s with
  | nil => simp [hasSuffix, hasPrefix] at h
  | cons c s ih =>
    cases s with
    | nil =>
      have hc : c = 63 := by simpa [hasSuffix, hasPrefix] using h
      simp [count_cons, hc]
    | cons d s =>
      rw [hasSuffix_cons] at h
      rw [count_cons]
      have := ih h
      omega

/-- When the only `?` of a string is its last byte, nothing follows the first `?`. -/
theorem cut_of_forceQuery (s : GoString) (h1 : hasSuffix s [63] = true)
    (h2 : count s [63] = 1) : (cut [63] s).2.1 = [] := by
  induction s with
  | nil => simp [cut_nil]
  | cons c s ih =>
    cases s with
    | nil =>
      have hc : c = 63 := by simpa [hasSuffix, hasPrefix] using h1
      simp [cut_cons, hc]
    | cons d s =>
      rw [hasSuffix_cons] at h1
      rw [count_cons] at h2
      have hpos := count_pos_of_hasSuffix _ h1
      have hc : ¬ c = 63 := by
        intro hc
        rw [if_pos hc] at h2
        omega
      rw [if_neg hc] at h2
      rw [cut_cons, if_neg hc]
      exact ih h1 (by omega)

theorem parseAuthorityAndPath_query (otherHost : GoString → GoString → Except UrlError GoString)
    (url p : URL) (rest : GoString) (v : Bool)
    (h : parseAuthorityAndPath otherHost url rest v = .ok p) : p.RawQuery = url.RawQuery := by
  unfold parseAuthorityAndPath at h
  split at h
  · simp only [] at h
    split at h
    · cases h
    · split at h
      · cases h
      · cases h; rfl
  · simp only [] at h
    split at h
    · cases h
    · cases h
      split <;> rfl

theorem parse_query (otherHost : GoString → GoString → Except UrlError GoString) (raw : GoString)
    (v : Bool) (p : URL) (h : parse otherHost raw v = .ok p) :
    p.RawQuery = (cut [63] raw).2.1 := by
  unfold parse at h
  split at h
  · cases h
  · split at h
    · cases h
    · split at h
      · rename_i hstar
        cases h
        subst hstar
        rfl
      · split at h
        · cases h
        · rename_i scheme rest0 hs
          have hq := getSchemeLoop_query raw raw 0 [] scheme rest0 rfl (by simp) hs
          simp only [] at h
          have hraw : (if hasSuffix rest0 [63] = true ∧ count rest0 [63] = 1
              then (rest0.dropLast, ([] : GoString), true)
              else ((cut [63] rest0).1, (cut [63] rest0).2.1, false)).2.1
                = (cut [63] raw).2.1 := by
            split
            · rename_i hf
              rw [← hq, cut_of_forceQuery rest0 hf.1 hf.2]
            · exact hq
          generalize hqd : (if hasSuffix rest0 [63] = true ∧ count rest0 [63] = 1
              then (rest0.dropLast, ([] : GoString), true)
              else ((cut [63] rest0).1, (cut [63] rest0).2.1, false)) = q at h hraw
          rw [← hraw]
          split at h
          · split at h
            · cases h; rfl
            · split at h
              · cases h
              · split at h
                · cases h
                · exact parseAuthorityAndPath_query _ _ _ _ _ h
          · exact parseAuthorityAndPath_query _ _ _ _ _ h

/-- A URL that `url.Parse` accepts has as `RawQuery` the text between its first `?` and
its first `#`. -/
theorem Parse_query (otherHost : GoString → GoString → Except UrlError GoString) (u : GoString)
    (p : URL) (h : Parse otherHost u = .ok p) :
    p.RawQuery = queryString u := by
  unfold Parse at h
  simp only [] at h
  split at h
  · cases h
  · rename_i url hp
    have := parse_query _ _ _ _ hp
    split at h
    · cases h; exact this
    · split at h
      · cases h
      · cases h; exact this

/-! ## `getFinalURL` -/

/-- What `getFinalURL` returns on a wrapped URL that `url.Parse` accepts. -/
theorem getFinalURL_of_parse (otherHost : GoString → GoString → Except UrlError GoString)
    (u : GoString) (p : URL)
    (hw : contains (toLower u) wrapperPattern = true) (hp : Parse otherHost u = .ok p) :
    getFinalURL otherHost u =
      .ok (if defaultMaxParams < (splitOn 38 (queryString u)).length then []
        else firstParam (str "q") (queryString u)) := by
  unfold getFinalURL
  rw [if_pos hw, hp]
  simp only []
  rw [Query_Get, Parse_query otherHost u p hp]

theorem hasPrefix_append_right (a b p : GoString) (h : hasPrefix a p = true) :
    hasPrefix (a ++ b) p = true := by
  induction a generalizing p with
  | nil =>
    cases p with
    | nil => simp [hasPrefix]
    | cons d p => simp [hasPrefix] at h
  | cons c a ih =>
    cases p with
    | nil => simp [hasPrefix]
    | cons d p =>
      simp only [hasPrefix, Bool.and_eq_true] at h
      simp only [List.cons_append, hasPrefix, Bool.and_eq_true]
      exact ⟨h.1, ih p h.2⟩

theorem contains_append_right (a b p : GoString) (h : contains a p = true) :
    contains (a ++ b) p = true := by
  induction a with
  | nil =>
    have hp : p = [] := by
      cases p with
      | nil => rfl
      | cons d p => simp [contains, hasPrefix] at h
    subst hp
    cases b <;> simp [contains, hasPrefix]
  | cons c a ih =>
    simp only [contains, Bool.or_eq_true] at h
    simp only [List.cons_append, contains, Bool.or_eq_true]
    rcases h with h | h
    · exact Or.inl (hasPrefix_append_right (c :: a) b p h)
    · exact Or.inr (ih h)

theorem cut_of_not_mem (b : Nat) (s : GoString) (h : b ∉ s) : cut [b] s = (s, [], false) := by
  induction s with
  | nil => exact cut_nil b
  | cons c s ih =>
    have hc : ¬ c = b := fun e => h (by simp [e])
    have hs : b ∉ s := fun e => h (by simp [e])
    rw [cut_cons, if_neg hc, ih hs]

/-- The URL `https://www.google.com/url?` followed by a query without control bytes and
without `#` parses, with the query as its raw query. -/
theorem Parse_wrapper (otherHost : GoString → GoString → Except UrlError GoString) (q : GoString)
    (h1 : stringContainsCTLByte q = false) (h2 : 35 ∉ q)
    (h3 : hasSuffix (str "//www.google.com/url?" ++ q) [63] = false) :
    Parse otherHost (str "https://www.google.com/url?" ++ q) =
      .ok { Scheme := str "https", Host := str "www.google.com", Path := str "/url",
            RawQuery := q } := by
  have hU : str "https://www.google.com/url?" ++ q
      = 104 :: 116 :: 116 :: 112 :: 115 :: 58 :: (str "//www.google.com/url?" ++ q) := rfl
  have hR : str "//www.google.com/url?" ++ q
      = 47 :: 47 :: 119 :: 119 :: 119 :: 46 :: 103 :: 111 :: 111 :: 103 :: 108 :: 101 :: 46 ::
        99 :: 111 :: 109 :: 47 :: 117 :: 114 :: 108 :: 63 :: q := rfl
  have hcut35 : cut [35] (str "https://www.google.com/url?" ++ q)
      = (str "https://www.google.com/url?" ++ q, [], false) := by
    apply cut_of_not_mem
    intro hm
    rcases List.mem_append.mp hm with hm | hm
    · revert hm; decide
    · exact h2 hm
  have hctl : stringContainsCTLByte (str "https://www.google.com/url?" ++ q) = false := by
    unfold stringContainsCTLByte at h1 ⊢
    rw [List.any_append, h1]
    decide
  have hsch : getScheme (str "https://www.google.com/url?" ++ q)
      = .ok (str "https", str "//www.google.com/url?" ++ q) := by
    rw [hU]; rfl
  have hcut63 : cut [63] (str "//www.google.com/url?" ++ q)
      = (str "//www.google.com/url", q, true) := by
    rw [hR]
    simp [cut_cons]
    rfl
  unfold Parse
  simp only [hcut35]
  unfold parse
  rw [if_neg (by rw [hctl]; decide), if_neg (by rw [hU]; simp), if_neg (by rw [hU]; simp), hsch]
  simp only [h3, hcut63]
  rfl

theorem count_append_byte (b : Nat) (a s : GoString) :
    count (a ++ s) [b] = count a [b] + count s [b] := by
  induction a with
  | nil => simp [count, countFrom]
  | cons c a ih =>
    rw [List.cons_append, count_cons_byte, count_cons_byte, ih]
    omega

theorem count_replicate (b n : Nat) : count (List.replicate n b) [b] = n := by
  induction n with
  | zero => simp [count, countFrom]
  | succ n ih =>
    rw [List.replicate_succ, count_cons_byte, ih]
    simp
    omega

theorem queryParams_replicate (n : Nat) : queryParams (List.replicate n 38) = [] := by
  induction n with
  | zero => simp [queryParams, splitOn, queryParam_nil]
  | succ n ih =>
    rw [List.replicate_succ, queryParams_cut _ (List.cons_ne_nil _ _), cut_cons]
    simp [queryParam_nil, ih]

theorem longQueryURL_eq :
    longQueryURL
      = str "https://www.google.com/url?" ++ (str "q=x" ++ List.replicate 10000 38) :=
  rfl

theorem longQuery_params :
    queryParams (str "q=x" ++ List.replicate 10000 38) = [(str "q", str "x")] := by
  have h : str "q=x" ++ List.replicate 10000 38
      = 113 :: 61 :: 120 :: 38 :: List.replicate 9999 38 := rfl
  rw [h, queryParams_cut _ (List.cons_ne_nil _ _)]
  simp only [cut_cons]
  simp only [show ¬ (113 = 38) by decide, show ¬ (61 = 38) by decide,
    show ¬ (120 = 38) by decide, if_false, if_true, cut_nil]
  rw [queryParams_replicate]
  have hq : queryParam [113, 61, 120] = some (str "q", str "x") := by decide
  rw [hq]
  rfl

/-- C1, as the claim states it, fails: the library refuses a query of more than 10000
pieces. On the wrapped URL whose query is `q=x` followed by 10000 times `&`, which
`url.Parse` accepts, the first parameter `q` has the value `x` and `getFinalURL` returns
the empty string. -/
theorem getFinalURL_query_limit :
    contains (toLower longQueryURL) wrapperPattern = true ∧
    Parse refuseHost longQueryURL =
      .ok { Scheme := str "https", Host := str "www.google.com", Path := str "/url",
            RawQuery := str "q=x" ++ List.replicate 10000 38 } ∧
    queryString longQueryURL = str "q=x" ++ List.replicate 10000 38 ∧
    (splitOn 38 (queryString longQueryURL)).length = 10001 ∧
    firstParam (str "q") (queryString longQueryURL) = str "x" ∧
    getFinalURL refuseHost longQueryURL = .ok [] ∧
    getFinalURL refuseHost longQueryURL
      ≠ .ok (firstParam (str "q") (queryString longQueryURL)) := by
  have hw : contains (toLower longQueryURL) wrapperPattern = true := by
    unfold longQueryURL toLower
    rw [List.map_append]
    exact contains_append_right _ _ _ (by decide)
  have h1 : stringContainsCTLByte (str "q=x" ++ List.replicate 10000 38) = false := by
    unfold stringContainsCTLByte
    rw [List.any_append]
    have : (List.replicate 10000 38).any (fun b => b < 32 || b == 127) = false := by
      rw [List.any_eq_false]
      intro x hx
      rw [List.eq_of_mem_replicate hx]
      decide
    rw [this]
    decide
  have h2 : 35 ∉ str "q=x" ++ List.replicate 10000 38 := by
    intro hm
    rcases List.mem_append.mp hm with hm | hm
    · revert hm; decide
    · have := List.eq_of_mem_replicate hm
      revert this; decide
  have h3 : hasSuffix (str "//www.google.com/url?" ++ (str "q=x" ++ List.replicate 10000 38))
      [63] = false := by
    unfold hasSuffix
    rw [List.reverse_append, List.reverse_append, List.reverse_replicate,
      show (10000 : Nat) = 9999 + 1 from rfl, List.replicate_succ]
    simp [hasPrefix]
  have hp := Parse_wrapper refuseHost _ h1 h2 h3
  rw [← longQueryURL_eq] at hp
  have hq := Parse_query refuseHost longQueryURL _ hp
  simp only [] at hq
  have hlen : (splitOn 38 (queryString longQueryURL)).length = 10001 := by
    rw [← hq, splitOn_length, count_append_byte, count_replicate]
    have : count (str "q=x") [38] = 0 := by decide
    rw [this]
  have hfirst : firstParam (str "q") (queryString longQueryURL) = str "x" := by
    rw [← hq]
    unfold firstParam
    rw [longQuery_params]
    rfl
  have hres : getFinalURL refuseHost longQueryURL = .ok [] := by
    rw [getFinalURL_of_parse refuseHost longQueryURL _ hw hp, hlen]
    rfl
  refine ⟨hw, hp, hq.symm, hlen, hfirst, hres, ?_⟩
  rw [hres, hfirst]
  decide

/-- C1, amended: for a URL whose lower-case form contains the wrapper pattern and which
`url.Parse` accepts, `getFinalURL` returns without error. When the query string, the text
between the first `?` and the first `#`, has at most 10000 pieces between `&`, the result
is the decoded value of the first parameter `q`: the parameters are the pieces
`key=value`, decoded as `url.QueryUnescape` does (`%XX` to a byte, `+` to a space), a
piece with a malformed escape or a semicolon is no parameter, and without a parameter `q`
the value is the empty string. When the query string has more than 10000 pieces the
library refuses it and the result is the empty string. On
`https://www.google.com/url?q=https://example.com/page&other=1` the result is
`https://example.com/page`. -/
theorem getFinalURL_wrapped (otherHost : GoString → GoString → Except UrlError GoString)
    (u : GoString) (p : URL)
    (hw : contains (toLower u) wrapperPattern = true) (hp : Parse otherHost u = .ok p) :
    ((splitOn 38 (queryString u)).length ≤ 10000 →
      getFinalURL otherHost u = .ok (firstParam (str "q") (queryString u))) ∧
    (10000 < (splitOn 38 (queryString u)).length → getFinalURL otherHost u = .ok []) ∧
    getFinalURL otherHost
        (str "https://www.google.com/url?q=https://example.com/page&other=1")
      = .ok (str "https://example.com/page") := by
  have h := getFinalURL_of_parse otherHost u p hw hp
  refine ⟨?_, ?_, by rfl⟩
  · intro hle
    rw [h, if_neg (by simp only [defaultMaxParams]; omega)]
  · intro hlt
    rw [h, if_pos (by simp only [defaultMaxParams]; omega)]

theorem getFinalURL_wrapped_witness :
    contains (toLower (str "https://www.google.com/url?q=a%2Fb+c&q=d")) wrapperPattern = true ∧
    (splitOn 38 (queryString (str "https://www.google.com/url?q=a%2Fb+c&q=d"))).length = 2 ∧
    getFinalURL refuseHost (str "https://www.google.com/url?q=a%2Fb+c&q=d")
      = .ok (str "a/b c") :=
  ⟨by decide, by decide,
    ((getFinalURL_wrapped refuseHost (str "https://www.google.com/url?q=a%2Fb+c&q=d")
      { Scheme := str "https", Host := str "www.google.com", Path := str "/url",
        RawQuery := str "q=a%2Fb+c&q=d" } (by decide) (by decide)).1 (by decide)).trans
      (by decide)⟩

/-- C2: a string whose lower-case form does not contain the wrapper pattern is returned
unchanged and without error, whether or not it parses as a URL. -/
theorem getFinalURL_unwrapped (otherHost : GoString → GoString → Except UrlError GoString)
    (u : GoString) (h : contains (toLower u) wrapperPattern = false) :
    getFinalURL otherHost u = .ok u := by
  unfold getFinalURL
  rw [h]
  rfl

theorem getFinalURL_unwrapped_witness :
    contains (toLower (str ":x%zz")) wrapperPattern = false ∧
    Parse refuseHost (str ":x%zz") = .error .missingProtocolScheme ∧
    getFinalURL refuseHost (str ":x%zz") = .ok (str ":x%zz") :=
  ⟨by decide, by decide, getFinalURL_unwrapped refuseHost (str ":x%zz") (by decide)⟩

/-- C3, as the claim states it, fails: the destination of a wrapper may itself be a
wrapper, and resolving the result again unwraps once more. -/
theorem getFinalURL_not_idempotent :
    getFinalURL refuseHost (str "https://www.google.com/url?q=https://www.google.com/url?q=x")
      = .ok (str "https://www.google.com/url?q=x") ∧
    getFinalURL refuseHost (str "https://www.google.com/url?q=x") = .ok (str "x") ∧
    getFinalURL refuseHost (str "https://www.google.com/url?q=x")
      ≠ .ok (str "https://www.google.com/url?q=x") := by
  decide

/-- C3, amended: when the result `r` of resolving `u` is not itself wrapped (its lower-case
form does not contain the wrapper pattern), resolving `r` returns `r` unchanged, so that
resolving twice is resolving once. -/
theorem getFinalURL_idempotent_of_unwrapped (otherHost : GoString → GoString → Except UrlError GoString)
    (u r : GoString) (h : getFinalURL otherHost u = .ok r)
    (hr : contains (toLower r) wrapperPattern = false) :
    getFinalURL otherHost r = .ok r ∧
      (getFinalURL otherHost u).bind (getFinalURL otherHost) = getFinalURL otherHost u := by
  have h2 : getFinalURL otherHost r = .ok r := by
    unfold getFinalURL
    rw [hr]
    rfl
  refine ⟨h2, ?_⟩
  rw [h]
  exact h2

theorem getFinalURL_idempotent_of_unwrapped_witness :
    getFinalURL refuseHost (str "https://example.com/page")
      = .ok (str "https://example.com/page") ∧
    (getFinalURL refuseHost
        (str "https://www.google.com/url?q=https://example.com/page&other=1")).bind
      (getFinalURL refuseHost)
      = getFinalURL refuseHost
        (str "https://www.google.com/url?q=https://example.com/page&other=1") :=
  getFinalURL_idempotent_of_unwrapped refuseHost
    (str "https://www.google.com/url?q=https://example.com/page&other=1")
    (str "https://example.com/page") (by decide) (by decide)

/-- C9: there are URLs that `url.Parse` accepts and whose lower-case form contains the
wrapper pattern on which `getFinalURL` succeeds with the empty string: the pattern is
found in any letter case and anywhere in the string, the destination only under the
top-level key `q` in lower case. -/
theorem getFinalURL_empty_destination (otherHost : GoString → GoString → Except UrlError GoString) :
    (contains (toLower (str "HTTPS://WWW.GOOGLE.COM/URL?Q=https://example.com"))
        wrapperPattern = true ∧
      (∃ p, Parse otherHost (str "HTTPS://WWW.GOOGLE.COM/URL?Q=https://example.com")
        = .ok p) ∧
      getFinalURL otherHost (str "HTTPS://WWW.GOOGLE.COM/URL?Q=https://example.com")
        = .ok []) ∧
    (contains (toLower (str "https://example.com/?next=https://www.google.com/url?q=x"))
        wrapperPattern = true ∧
      (∃ p, Parse otherHost (str "https://example.com/?next=https://www.google.com/url?q=x")
        = .ok p) ∧
      getFinalURL otherHost (str "https://example.com/?next=https://www.google.com/url?q=x")
        = .ok []) := by
  refine ⟨⟨by decide, ⟨_, rfl⟩, by rfl⟩, ⟨by decide, ⟨_, rfl⟩, by rfl⟩⟩

/-! ## `generateOutput` -/

theorem execute_body (v : Value) :
    execute (.text [10] (.dot .done)) v = .ok (10 :: printValue v) := by
  simp [execute]

theorem execRange_body (xs : List GoString) :
    execRange (execute (.text [10] (.dot .done))) xs
      = .ok ((xs.map fun l => 10 :: l).flatten) := by
  induction xs with
  | nil => rfl
  | cons x xs ih =>
    rw [execRange, execute_body, ih]
    simp [printValue]

/-- C5: for every list of links the template executes without error, and
`generateOutput` returns, in input order, a newline followed by each link verbatim, with
nothing after the last link; for no link this is the empty string, and for the one link
`- [Example](https://example.com)` a newline followed by that link. -/
theorem generateOutput_eq (links : List GoString) :
    execute outputTemplate (.strings links) = .ok ((links.map fun l => 10 :: l).flatten) ∧
    generateOutput links = (links.map fun l => 10 :: l).flatten ∧
    generateOutput [] = [] ∧
    generateOutput [str "- [Example](https://example.com)"]
      = str "\n- [Example](https://example.com)" := by
  have h : execute outputTemplate (.strings links)
      = .ok ((links.map fun l => 10 :: l).flatten) := by
    rw [outputTemplate, execute, execRange_body]
    simp [execute]
  refine ⟨h, ?_, by rfl, by rfl⟩
  unfold generateOutput
  rw [h]

/-! ## The title pattern -/

theorem lazyStar_eq_none {α : Type} (k : GoString → Option α) (s : GoString) :
    lazyStar k s = none ↔ ∀ a rest, s = a ++ rest → 10 ∉ a → k rest = none := by
  induction s with
  | nil =>
    simp only [lazyStar]
    constructor
    · intro h a rest e _
      have hr : rest = [] := (List.append_eq_nil.mp e.symm).2
      rw [hr]; exact h
    · intro h; exact h [] [] rfl (by simp)
  | cons c s ih =>
    simp only [lazyStar]
    constructor
    · intro h a rest e ha
      cases hk : k (c :: s) with
      | some r => rw [hk] at h; cases h
      | none =>
        rw [hk] at h
        cases a with
        | nil =>
          have e' : c :: s = rest := by simpa using e
          rw [← e']; exact hk
        | cons d a' =>
          have e' : c = d ∧ s = a' ++ rest := by simpa using e
          have hd : ¬ 10 = d := fun x => ha (by simp [x])
          have ha' : 10 ∉ a' := fun x => ha (by simp [x])
          have hc : ¬ c = 10 := fun x => hd (by rw [← e'.1, x])
          simp only [if_neg hc] at h
          exact (ih.mp h) a' rest e'.2 ha'
    · intro h
      have hk := h [] (c :: s) rfl (by simp)
      rw [hk]
      simp only
      split
      · rfl
      · rename_i hc
        apply ih.mpr
        intro a rest e ha
        refine h (c :: a) rest (by simp [e]) ?_
        intro hm
        rcases List.mem_cons.mp hm with hm | hm
        · exact hc hm.symm
        · exact ha hm

theorem lazyStar_eq_some {α : Type} (k : GoString → Option α) (s : GoString) (r : α) :
    lazyStar k s = some r ↔ ∃ a rest, s = a ++ rest ∧ 10 ∉ a ∧ k rest = some r ∧
      ∀ a1 a2, a = a1 ++ a2 → a2 ≠ [] → k (a2 ++ rest) = none := by
  induction s with
  | nil =>
    simp only [lazyStar]
    constructor
    · intro h
      refine ⟨[], [], rfl, by simp, h, ?_⟩
      intro a1 a2 e h2
      exact absurd (List.append_eq_nil.mp e.symm).2 h2
    · rintro ⟨a, rest, e, _, h, _⟩
      have hr : rest = [] := (List.append_eq_nil.mp e.symm).2
      rw [← hr]; exact h
  | cons c s ih =>
    simp only [lazyStar]
    constructor
    · intro h
      cases hk : k (c :: s) with
      | some r' =>
        rw [hk] at h
        refine ⟨[], c :: s, rfl, by simp, ?_, ?_⟩
        · rw [hk]; exact h
        · intro a1 a2 e h2
          exact absurd (List.append_eq_nil.mp e.symm).2 h2
      | none =>
        rw [hk] at h
        simp only at h
        split at h
        · cases h
        · rename_i hc
          obtain ⟨a, rest, e, ha, hr, hmin⟩ := ih.mp h
          refine ⟨c :: a, rest, by simp [e], ?_, hr, ?_⟩
          · intro hm
            rcases List.mem_cons.mp hm with hm | hm
            · exact hc hm.symm
            · exact ha hm
          · intro a1 a2 e2 h2
            cases a1 with
            | nil =>
              have : a2 = c :: a := by simpa using e2.symm
              rw [this, List.cons_append, ← e]; exact hk
            | cons d a1' =>
              have e3 : c = d ∧ a = a1' ++ a2 := by simpa using e2
              exact hmin a1' a2 e3.2 h2
    · rintro ⟨a, rest, e, ha, hr, hmin⟩
      cases a with
      | nil =>
        have e' : c :: s = rest := by simpa using e
        rw [e', hr]
      | cons d a' =>
        have e' : c = d ∧ s = a' ++ rest := by simpa using e
        have hk : k (c :: s) = none := by
          have := hmin [] (d :: a') rfl (by simp)
          rw [e'.1, e'.2]; simpa using this
        have hd : ¬ 10 = d := fun x => ha (by simp [x])
        have ha' : 10 ∉ a' := fun x => ha (by simp [x])
        have hc : ¬ c = 10 := fun x => hd (by rw [← e'.1, x])
        rw [hk]
        simp only [if_neg hc]
        apply ih.mpr
        refine ⟨a', rest, e'.2, ha', hr, ?_⟩
        intro a1 a2 e2 h2
        exact hmin (d :: a1) a2 (by simp [e2]) h2

theorem run_literal (l : GoString) (prog : List Inst) (s : GoString)
    (caps : GoString × GoString) (r : GoString × GoString × GoString) :
    run (literal l ++ prog) s caps = some r ↔
      ∃ s1, s = l ++ s1 ∧ run prog s1 caps = some r := by
  induction l generalizing s with
  | nil => simp [literal]
  | cons c l ih =>
    have hl : literal (c :: l) ++ prog = .byte c :: (literal l ++ prog) := by simp [literal]
    rw [hl]
    cases s with
    | nil => simp [run]
    | cons x s =>
      simp only [run]
      by_cases hx : x = c
      · subst hx
        rw [if_pos rfl, ih]
        simp
      · rw [if_neg hx]
        simp [hx]

theorem run_literal_none (l : GoString) (prog : List Inst) (s : GoString)
    (caps : GoString × GoString) :
    run (literal l ++ prog) s caps = none ↔ ∀ s1, s = l ++ s1 → run prog s1 caps = none := by
  constructor
  · intro h s1 e
    cases hr : run prog s1 caps with
    | none => rfl
    | some r =>
      have := (run_literal l prog s caps r).mpr ⟨s1, e, hr⟩
      rw [h] at this; cases this
  · intro h
    cases hr : run (literal l ++ prog) s caps with
    | none => rfl
    | some r =>
      obtain ⟨s1, e, h1⟩ := (run_literal l prog s caps r).mp hr
      rw [h s1 e] at h1; cases h1

theorem run_tail (l s3 : GoString) (caps : GoString × GoString)
    (r : GoString × GoString × GoString) :
    run (.groupEnd :: literal l) s3 caps = some r ↔
      ∃ post, s3 = l ++ post ∧ r = (caps.1, s3, post) := by
  have h := run_literal l [] s3 (caps.1, s3) r
  rw [List.append_nil] at h
  simp only [run]
  rw [h]
  constructor
  · rintro ⟨post, e, hr⟩
    simp only [run, Option.some.injEq] at hr
    exact ⟨post, e, hr.symm⟩
  · rintro ⟨post, e, hr⟩
    refine ⟨post, e, ?_⟩
    simp only [run, Option.some.injEq]
    exact hr.symm

theorem run_tail_none (l s3 : GoString) (caps : GoString × GoString) :
    run (.groupEnd :: literal l) s3 caps = none ↔ ∀ post, s3 ≠ l ++ post := by
  constructor
  · intro h post e
    have := (run_tail l s3 caps (caps.1, s3, post)).mpr ⟨post, e, rfl⟩
    rw [h] at this; cases this
  · intro h
    cases hr : run (.groupEnd :: literal l) s3 caps with
    | none => rfl
    | some r =>
      obtain ⟨post, e, _⟩ := (run_tail l s3 caps r).mp hr
      exact absurd e (h post)

theorem run_group_none (l s2 : GoString) (caps : GoString × GoString) :
    run (.groupStart :: .lazyAny :: .groupEnd :: literal l) s2 caps = none ↔
      ∀ t post, s2 = t ++ (l ++ post) → 10 ∈ t := by
  simp only [run]
  rw [lazyStar_eq_none]
  constructor
  · intro h t post e
    by_contra ht
    have := h t (l ++ post) e ht
    have h2 := (run_tail_none l (l ++ post) (s2, caps.2)).mp
    simp only [run] at h2
    exact h2 this post rfl
  · intro h t rest e ht
    have h2 := (run_tail_none l rest (s2, caps.2)).mpr
    simp only [run] at h2
    apply h2
    intro post e2
    exact ht (h t post (by rw [e, e2]))

theorem run_group_some (l s2 : GoString) (caps : GoString × GoString)
    (r : GoString × GoString × GoString)
    (h : run (.groupStart :: .lazyAny :: .groupEnd :: literal l) s2 caps = some r) :
    ∃ t post, s2 = t ++ (l ++ post) ∧ 10 ∉ t ∧ r = (s2, l ++ post, post) ∧
      ∀ t1 post1, s2 = t1 ++ (l ++ post1) → t.length ≤ t1.length := by
  simp only [run] at h
  rw [lazyStar_eq_some] at h
  obtain ⟨t, rest, e, ht, hr, hmin⟩ := h
  have h2 := (run_tail l rest (s2, caps.2) r).mp
  simp only [run] at h2
  obtain ⟨post, e2, hr2⟩ := h2 hr
  subst e2
  refine ⟨t, post, e, ht, hr2, ?_⟩
  intro t1 post1 e1
  by_contra hlt
  have hlt : t1.length < t.length := Nat.lt_of_not_le hlt
  rw [e] at e1
  rcases List.append_eq_append_iff.mp e1 with ⟨c, hc, _⟩ | ⟨c, hc, hc2⟩
  · rw [hc, List.length_append] at hlt
    omega
  · have hne : c ≠ [] := by
      intro hnil
      rw [hc, hnil, List.append_nil] at hlt
      omega
    have hk := hmin t1 c hc hne
    have h3 := (run_tail_none l (c ++ (l ++ post)) (s2, caps.2)).mp
    simp only [run] at h3
    exact h3 hk post1 hc2.symm

/-- The title pattern, split after its first literal. -/
theorem titleRegex_eq :
    titleRegex = literal (str "<title") ++
      (.lazyAny :: .byte 62 :: .groupStart :: .lazyAny :: .groupEnd ::
        literal (str "</title>")) := by
  simp [titleRegex]

theorem run_afterOpen_none (x : GoString) (caps : GoString × GoString) :
    run (.byte 62 :: .groupStart :: .lazyAny :: .groupEnd :: literal (str "</title>")) x caps
        = none ↔
      ∀ t post, x = 62 :: (t ++ (str "</title>" ++ post)) → 10 ∈ t := by
  cases x with
  | nil => simp [run]
  | cons c s2 =>
    rw [run]
    by_cases hc : c = 62
    · subst hc
      simp only [if_true, List.cons.injEq, true_and]
      exact run_group_none _ s2 caps
    · simp [hc]

/-- Without a match of the title pattern at the start of `s`, `s` does not start with a
title element. -/
theorem run_title_none (s : GoString) (caps : GoString × GoString) :
    run titleRegex s caps = none ↔ ∀ a t post, ¬ TitleAt s [] a t post := by
  constructor
  · intro h a t post hT
    rw [titleRegex_eq, run_literal_none] at h
    have h1 := h _ (by simpa using hT.1)
    rw [run, lazyStar_eq_none] at h1
    have h2 := h1 a _ rfl hT.2.1
    exact hT.2.2 ((run_afterOpen_none _ caps).mp h2 t post rfl)
  · intro h
    cases hr : run titleRegex s caps with
    | none => rfl
    | some r =>
      exfalso
      rw [titleRegex_eq, run_literal] at hr
      obtain ⟨s1, e, h1⟩ := hr
      rw [run, lazyStar_eq_some] at h1
      obtain ⟨a, rest, e1, ha, hk, _⟩ := h1
      cases rest with
      | nil => simp [run] at hk
      | cons c s2 =>
        rw [run] at hk
        by_cases hc : c = 62
        · subst hc
          rw [if_pos rfl] at hk
          obtain ⟨t, post, e2, ht, _, _⟩ := run_group_some _ s2 caps r hk
          exact h a t post ⟨by simp [e, e1, e2], ha, ht⟩
        · simp [hc] at hk

/-- A match of the title pattern at the start of `s` is a title element at the start of
`s`, the one with the shortest `a` and, for this `a`, the shortest `t`. -/
theorem run_title_some (s : GoString) (caps : GoString × GoString)
    (r : GoString × GoString × GoString) (h : run titleRegex s caps = some r) :
    ∃ a t post, TitleAt s [] a t post ∧
      r = (t ++ (str "</title>" ++ post), str "</title>" ++ post, post) ∧
      ∀ a1 t1 post1, TitleAt s [] a1 t1 post1 →
        a.length < a1.length ∨ (a.length = a1.length ∧ t.length ≤ t1.length) := by
  rw [titleRegex_eq, run_literal] at h
  obtain ⟨s1, e, h1⟩ := h
  rw [run, lazyStar_eq_some] at h1
  obtain ⟨a, rest, e1, ha, hk, hmin⟩ := h1
  cases rest with
  | nil => simp [run] at hk
  | cons c s2 =>
    rw [run] at hk
    by_cases hc : c = 62
    · subst hc
      rw [if_pos rfl] at hk
      obtain ⟨t, post, e2, ht, hr, hmin2⟩ := run_group_some _ s2 caps r hk
      refine ⟨a, t, post, ⟨by simp [e, e1, e2], ha, ht⟩, by rw [hr, e2], ?_⟩
      intro a1 t1 post1 hT
      have e3 : s1 = a1 ++ (62 :: (t1 ++ (str "</title>" ++ post1))) := by
        have := hT.1
        rw [e, List.nil_append] at this
        exact List.append_cancel_left this
      rw [e1] at e3
      rcases Nat.lt_trichotomy a.length a1.length with hlt | heq | hgt
      · exact Or.inl hlt
      · right
        refine ⟨heq, ?_⟩
        have := (List.append_inj e3 heq).2
        have e4 : s2 = t1 ++ (str "</title>" ++ post1) := by simpa using this
        exact hmin2 t1 post1 e4
      · exfalso
        rcases List.append_eq_append_iff.mp e3 with ⟨c, hc, _⟩ | ⟨c, hc, hc2⟩
        · rw [hc, List.length_append] at hgt
          omega
        · have hne : c ≠ [] := by
            intro hnil
            rw [hc, hnil, List.append_nil] at hgt
            omega
          have hk2 := hmin a1 c hc hne
          rw [← hc2] at hk2
          exact hT.2.2 ((run_afterOpen_none _ caps).mp hk2 t1 post1 rfl)
    · simp [hc] at hk

theorem FindStringSubmatch_eq_none (prog : List Inst) (body : GoString) :
    FindStringSubmatch prog body = none ↔
      ∀ pre s, body = pre ++ s → run prog s (s, s) = none := by
  induction body with
  | nil =>
    simp only [FindStringSubmatch, Option.map_eq_none']
    constructor
    · intro h pre s e
      have hs : s = [] := (List.append_eq_nil.mp e.symm).2
      rw [hs]; exact h
    · intro h; exact h [] [] rfl
  | cons x b ih =>
    rw [FindStringSubmatch]
    constructor
    · intro h pre s e
      cases hr : run prog (x :: b) (x :: b, x :: b) with
      | some r => rw [hr] at h; cases h
      | none =>
        rw [hr] at h
        cases pre with
        | nil =>
          have : x :: b = s := by simpa using e
          rw [← this]; exact hr
        | cons y pre1 =>
          have e1 : x = y ∧ b = pre1 ++ s := by simpa using e
          exact (ih.mp h) pre1 s e1.2
    · intro h
      rw [h [] (x :: b) rfl]
      exact ih.mpr fun pre s e => h (x :: pre) s (by simp [e])

theorem FindStringSubmatch_eq_some (prog : List Inst) (body : GoString) (m : List GoString)
    (h : FindStringSubmatch prog body = some m) :
    ∃ pre s r, body = pre ++ s ∧ run prog s (s, s) = some r ∧ m = submatches s r ∧
      ∀ pre1 s1, body = pre1 ++ s1 → pre1.length < pre.length →
        run prog s1 (s1, s1) = none := by
  induction body with
  | nil =>
    simp only [FindStringSubmatch, Option.map_eq_some'] at h
    obtain ⟨r, hr, hm⟩ := h
    exact ⟨[], [], r, rfl, hr, hm.symm, fun _ _ _ hl => absurd hl (by simp)⟩
  | cons x b ih =>
    rw [FindStringSubmatch] at h
    cases hr : run prog (x :: b) (x :: b, x :: b) with
    | some r =>
      rw [hr] at h
      simp only [Option.some.injEq] at h
      exact ⟨[], x :: b, r, rfl, hr, h.symm, fun _ _ _ hl => absurd hl (by simp)⟩
    | none =>
      rw [hr] at h
      obtain ⟨pre, s, r, e, hrun, hm, hmin⟩ := ih h
      refine ⟨x :: pre, s, r, by simp [e], hrun, hm, ?_⟩
      intro pre1 s1 e1 hl
      cases pre1 with
      | nil =>
        have : x :: b = s1 := by simpa using e1
        rw [← this]; exact hr
      | cons y pre2 =>
        have e2 : x = y ∧ b = pre2 ++ s1 := by simpa using e1
        exact hmin pre2 s1 e2.2 (by simpa using hl)

theorem extractTitle_eq_ok (body t : GoString) (h : extractTitle body = .ok t) :
    ∃ pre s a post, body = pre ++ s ∧
      FindStringSubmatch titleRegex body
        = some (submatches s (t ++ (str "</title>" ++ post), str "</title>" ++ post, post)) ∧
      run titleRegex s (s, s)
        = some (t ++ (str "</title>" ++ post), str "</title>" ++ post, post) ∧
      TitleAt s [] a t post ∧
      (∀ a1 t1 post1, TitleAt s [] a1 t1 post1 →
        a.length < a1.length ∨ (a.length = a1.length ∧ t.length ≤ t1.length)) ∧
      ∀ pre1 s1, body = pre1 ++ s1 → pre1.length < pre.length →
        run titleRegex s1 (s1, s1) = none := by
  unfold extractTitle at h
  cases hf : FindStringSubmatch titleRegex body with
  | none => simp [hf] at h
  | some m =>
    obtain ⟨pre, s, r, e, hrun, hm, hmin⟩ := FindStringSubmatch_eq_some _ _ _ hf
    obtain ⟨a, t0, post, hT, hr, hmin2⟩ := run_title_some s (s, s) r hrun
    have ht : t = t0 := by
      rw [hf, hm, hr] at h
      simp [submatches] at h
      exact h.symm
    subst ht
    subst hr
    exact ⟨pre, s, a, post, e, by rw [hm], hrun, hT, hmin2, hmin⟩

/-- C4, as the claim states it, fails: the pattern is matched in lower case only. For the
bodies `<TITLE>x</TITLE>` and `<Title>x</Title>` no title is found, and a title broken
over two lines is not found either although the body holds a title tag. -/
theorem extractTitle_case_sensitive :
    extractTitle (str "<TITLE>x</TITLE>") = .error .noTitle ∧
    extractTitle (str "<Title>x</Title>") = .error .noTitle ∧
    extractTitle (str "<title>x</title>") = .ok (str "x") ∧
    extractTitle (str "<title>x\ny</title>") = .error .noTitle := by
  decide

/-- C4, amended: the title pattern is matched in lower case and within one line. When the
extraction succeeds with `t`, the body holds a title element `<title a>t</title>` with no
newline in `a` or `t`, and it is the first and shortest one: no such element starts
earlier, none at the same place has a shorter `a`, and none with this `a` a shorter `t`
(the inner content is taken up to the first closing tag). The extraction fails exactly
when the body holds no such element. -/
theorem extractTitle_spec (body : GoString) :
    (∀ t, extractTitle body = .ok t →
      ∃ pre a post, TitleAt body pre a t post ∧
        ∀ pre1 a1 t1 post1, TitleAt body pre1 a1 t1 post1 →
          pre.length < pre1.length ∨ (pre.length = pre1.length ∧
            (a.length < a1.length ∨ (a.length = a1.length ∧ t.length ≤ t1.length)))) ∧
    ((∃ e, extractTitle body = .error e) ↔ ¬ ∃ pre a t post, TitleAt body pre a t post) := by
  constructor
  · intro t h
    obtain ⟨pre, s, a, post, e, _, _, hT, hmin2, hmin⟩ := extractTitle_eq_ok body t h
    refine ⟨pre, a, post, ?_, ?_⟩
    · have hs := hT.1
      rw [List.nil_append] at hs
      exact ⟨by rw [e, hs], hT.2⟩
    · intro pre1 a1 t1 post1 hT1
      have hT1' : TitleAt (str "<title" ++ (a1 ++ (62 :: (t1 ++ (str "</title>" ++ post1)))))
          [] a1 t1 post1 := ⟨rfl, hT1.2⟩
      rcases Nat.lt_trichotomy pre.length pre1.length with hlt | heq | hgt
      · exact Or.inl hlt
      · right
        refine ⟨heq, ?_⟩
        have e2 := hT1.1
        rw [e] at e2
        have hs := (List.append_inj e2 heq).2
        rw [← hs] at hT1'
        exact hmin2 a1 t1 post1 hT1'
      · exfalso
        have hn := hmin pre1 _ hT1.1 hgt
        exact (run_title_none _ _).mp hn a1 t1 post1 hT1'
  · constructor
    · rintro ⟨err, h⟩ ⟨pre, a, t, post, hT⟩
      have hf : FindStringSubmatch titleRegex body = none := by
        cases hf : FindStringSubmatch titleRegex body with
        | none => rfl
        | some m =>
          obtain ⟨pre, s, r, e, hrun, hm, hmin⟩ := FindStringSubmatch_eq_some _ _ _ hf
          unfold extractTitle at h
          rw [hf, hm] at h
          simp [submatches] at h
      have hn := (FindStringSubmatch_eq_none _ _).mp hf pre _ hT.1
      exact (run_title_none _ _).mp hn a t post ⟨rfl, hT.2⟩
    · intro h
      refine ⟨.noTitle, ?_⟩
      have hf : FindStringSubmatch titleRegex body = none := by
        rw [FindStringSubmatch_eq_none]
        intro pre s e
        rw [run_title_none]
        intro a t post hT
        have hs := hT.1
        rw [List.nil_append] at hs
        exact h ⟨pre, a, t, post, by rw [e, hs], hT.2⟩
      unfold extractTitle
      rw [hf]
      rfl

theorem extractTitle_spec_witness :
    extractTitle (str "<p><title lang=en>x</title>") = .ok (str "x") ∧
    ∃ pre a post, TitleAt (str "<p><title lang=en>x</title>") pre a (str "x") post ∧
      ∀ pre1 a1 t1 post1, TitleAt (str "<p><title lang=en>x</title>") pre1 a1 t1 post1 →
        pre.length < pre1.length ∨ (pre.length = pre1.length ∧
          (a.length < a1.length ∨
            (a.length = a1.length ∧ (str "x").length ≤ t1.length))) :=
  ⟨by decide, (extractTitle_spec (str "<p><title lang=en>x</title>")).1 (str "x") (by decide)⟩

/-! ## The worker loop -/

theorem processItem_eq (otherHost : GoString → GoString → Except UrlError GoString)
    (httpGet : GoString → Except Error GoString) (url : GoString)
    (fr : List GoString) :
    processItem otherHost httpGet url fr = fr ++ (linkOf otherHost httpGet url).toList := by
  unfold processItem linkOf
  split
  · simp
  · split
    · simp
    · simp [sprintfLink]

theorem fetchURL_items (otherHost : GoString → GoString → Except UrlError GoString)
    (httpGet : GoString → Except Error GoString) (urls : List GoString)
    (rest : List Select) (fr : List GoString) :
    fetchURL otherHost httpGet (urls.map .item ++ rest) fr
      = fetchURL otherHost httpGet rest (fr ++ urls.filterMap (linkOf otherHost httpGet)) := by
  induction urls generalizing fr with
  | nil => simp
  | cons u urls ih =>
    rw [List.map_cons, List.cons_append, fetchURL, ih, processItem_eq]
    cases hl : linkOf otherHost httpGet u <;> simp [List.filterMap_cons, hl]

theorem fetchURL_error_iff (otherHost : GoString → GoString → Except UrlError GoString)
    (httpGet : GoString → Except Error GoString) (evs : List Select)
    (fr : List GoString) (err : Error)
    (h : (fetchURL otherHost httpGet evs fr).2 = some (some err)) :
    err = .contextCanceled ∧
      ∃ (urls : List GoString) (rest : List Select),
        evs = urls.map .item ++ .done :: rest := by
  induction evs generalizing fr with
  | nil => simp [fetchURL] at h
  | cons ev evs ih =>
    cases ev with
    | item u =>
      rw [fetchURL] at h
      obtain ⟨h1, urls, rest, h2⟩ := ih _ h
      exact ⟨h1, u :: urls, rest, by simp [h2]⟩
    | closed => simp [fetchURL] at h
    | done =>
      simp only [fetchURL, Option.some.injEq] at h
      exact ⟨h.symm, [], evs, rfl⟩

/-- C8: in the worker loop an item that fails to resolve or to fetch leaves the shared
list as it is and does not end the worker, which goes on with its next `select` as if the
item had not been there (also as a step of the pool: the worker is back in its `select`);
and a worker that leaves because the queue is closed returns `nil`, whatever items failed
before. -/
theorem fetchURL_skips_failed (otherHost : GoString → GoString → Except UrlError GoString)
    (httpGet : GoString → Except Error GoString) (url : GoString)
    (h : (∃ e, getFinalURL otherHost url = .error e) ∨
      ∃ f e, getFinalURL otherHost url = .ok f ∧ getPageTitle httpGet f = .error e) :
    (∀ fr, processItem otherHost httpGet url fr = fr) ∧
    (∀ fr, fetchURL otherHost httpGet [.item url] fr = (fr, none)) ∧
    (∀ evs fr, fetchURL otherHost httpGet (.item url :: evs) fr
      = fetchURL otherHost httpGet evs fr) ∧
    (∀ s i, s.workers[i]? = some (.busy url) →
      step otherHost httpGet s (.process i)
        = some { s with workers := s.workers.set i .idle }) ∧
    (∀ (urls : List GoString) (rest : List Select) fr,
      fetchURL otherHost httpGet (urls.map .item ++ .closed :: rest) fr
      = (fr ++ urls.filterMap (linkOf otherHost httpGet), some none)) := by
  have hp : ∀ fr, processItem otherHost httpGet url fr = fr := by
    intro fr
    unfold processItem
    rcases h with ⟨e, h⟩ | ⟨f, e, h1, h2⟩
    · rw [h]
    · rw [h1]; simp only []; rw [h2]
  refine ⟨hp, ?_, ?_, ?_, ?_⟩
  · intro fr
    rw [fetchURL, hp, fetchURL]
  · intro evs fr
    rw [fetchURL, hp]
  · intro s i hi
    simp only [step, hi, hp]
  · intro urls rest fr
    rw [fetchURL_items, fetchURL]

theorem fetchURL_skips_failed_witness :
    (∀ fr, processItem refuseHost canceledFetch (str "https://a.example") fr = fr) ∧
    (∀ fr, fetchURL refuseHost canceledFetch [.item (str "https://a.example")] fr
      = (fr, none)) ∧
    (∀ evs fr, fetchURL refuseHost canceledFetch (.item (str "https://a.example") :: evs) fr
      = fetchURL refuseHost canceledFetch evs fr) ∧
    (∀ s i, s.workers[i]? = some (.busy (str "https://a.example")) →
      step refuseHost canceledFetch s (.process i)
        = some { s with workers := s.workers.set i .idle }) ∧
    (∀ (urls : List GoString) (rest : List Select) fr,
      fetchURL refuseHost canceledFetch (urls.map .item ++ .closed :: rest) fr
      = (fr ++ urls.filterMap (linkOf refuseHost canceledFetch), some none)) :=
  fetchURL_skips_failed refuseHost canceledFetch (str "https://a.example")
    (Or.inr ⟨str "https://a.example", .contextCanceled, by decide, by decide⟩)

/-- C7, as the claim states it, fails: a title fetch that ends in a context-cancellation
error is skipped like any other failure. The worker pulls the next item and returns `nil`
at the closed queue, and a run of the pool on the two items ends through `wg.Wait` with
the link of the second item, no error in the errgroup and no early return. -/
theorem fetchURL_cancellation_is_skipped :
    getPageTitle canceledFetch (str "https://a.example") = .error .contextCanceled ∧
    fetchURL refuseHost canceledFetch
        [.item (str "https://a.example"), .item (str "https://b.example"), .closed] []
      = ([str "- [B](https://b.example)"], some none) ∧
    exec refuseHost canceledFetch (Pool.init [str "https://a.example", str "https://b.example"])
        [.send, .recv 0, .process 0, .send, .recv 0, .process 0, .close,
          .recvClosed 0, .recvClosed 1, .recvClosed 2, .recvClosed 3, .recvClosed 4, .wait]
      = some
        { feeder := .returned [str "- [B](https://b.example)"], urlChan := [], closed := true,
          cancelled := true, groupErr := none,
          workers := List.replicate 5 (.exited none),
          friendlyURLs := [str "- [B](https://b.example)"] } := by
  decide

/-- C7, amended: when the title fetch of an item returns an error, a context-cancellation
error included, the worker skips the item and goes on with its next `select`; a worker
returns an error only when its `select` observes the context done, and the error is then
the one of the context. -/
theorem fetchURL_fetch_error_is_skip
    (otherHost : GoString → GoString → Except UrlError GoString)
    (httpGet : GoString → Except Error GoString)
    (url finalURL : GoString) (e : Error)
    (h1 : getFinalURL otherHost url = .ok finalURL)
    (h2 : getPageTitle httpGet finalURL = .error e) :
    (∀ evs fr, fetchURL otherHost httpGet (.item url :: evs) fr
      = fetchURL otherHost httpGet evs fr) ∧
    (∀ evs fr err, (fetchURL otherHost httpGet evs fr).2 = some (some err) →
      err = .contextCanceled ∧
        ∃ (urls : List GoString) (rest : List Select),
          evs = urls.map .item ++ .done :: rest) := by
  refine ⟨?_, fun evs fr err h => fetchURL_error_iff otherHost httpGet evs fr err h⟩
  intro evs fr
  rw [fetchURL]
  unfold processItem
  rw [h1]
  simp only []
  rw [h2]

theorem fetchURL_fetch_error_is_skip_witness :
    getPageTitle canceledFetch (str "https://a.example") = .error .contextCanceled ∧
    (∀ evs fr, fetchURL refuseHost canceledFetch (.item (str "https://a.example") :: evs) fr
      = fetchURL refuseHost canceledFetch evs fr) :=
  ⟨by decide,
    (fetchURL_fetch_error_is_skip refuseHost canceledFetch (str "https://a.example")
      (str "https://a.example") .contextCanceled (by decide) (by decide)).1⟩

/-! ## The pool -/

theorem inflight_append (l1 l2 : List Worker) :
    inflight (l1 ++ l2) = inflight l1 ++ inflight l2 := by
  induction l1 with
  | nil => rfl
  | cons w l1 ih => cases w <;> simp [inflight, ih]

theorem set_decomp (ws : List Worker) (i : Nat) (w : Worker) (h : ws[i]? = some w) :
    ∃ l1 l2, ws = l1 ++ w :: l2 ∧ ∀ w1, ws.set i w1 = l1 ++ w1 :: l2 := by
  induction ws generalizing i with
  | nil => simp at h
  | cons x ws ih =>
    cases i with
    | zero =>
      have hx : x = w := by simpa using h
      exact ⟨[], ws, by simp [hx], fun w1 => by simp⟩
    | succ i =>
      have h1 : ws[i]? = some w := by simpa using h
      obtain ⟨l1, l2, e, hset⟩ := ih i h1
      exact ⟨x :: l1, l2, by simp [e], fun w1 => by simp [hset]⟩

theorem inflight_of_all_exited (ws : List Worker) (h : ws.all Worker.isExited = true) :
    inflight ws = [] := by
  induction ws with
  | nil => rfl
  | cons w ws ih =>
    have h1 : w.isExited = true ∧ ws.all Worker.isExited = true := by simpa using h
    cases w with
    | idle => simp [Worker.isExited] at h1
    | busy u => simp [Worker.isExited] at h1
    | exited e => simpa [inflight] using ih h1.2

theorem init_inv (urls : List GoString) : Inv (Pool.init urls) where
  nworkers := by simp [Pool.init]
  alive := by simp [Pool.init]
  noErr := by simp [Pool.init]
  groupErr := rfl
  opened := by simp [Pool.init]
  drained := by simp [Pool.init, Worker.isExited]
  final := by simp [Pool.init]

theorem mem_of_getElem? (ws : List Worker) (i : Nat) (w : Worker) (h : ws[i]? = some w) :
    w ∈ ws := by
  obtain ⟨l1, l2, e, _⟩ := set_decomp ws i w h
  rw [e]; simp

theorem isExited_of_all (ws : List Worker) (w : Worker)
    (h : ws.all Worker.isExited = true) (hw : w ∈ ws) : w.isExited = true :=
  List.all_eq_true.mp h w hw

theorem not_returned_of_mem (s : Pool) (h : Inv s) (w : Worker)
    (hw : w ∈ s.workers) (hx : w.isExited = false) (res : List GoString) :
    s.feeder ≠ .returned res := by
  intro hf
  have := isExited_of_all _ w (h.final res hf).2 hw
  rw [hx] at this
  cases this

theorem not_cancelled_of_mem (s : Pool) (h : Inv s) (w : Worker)
    (hw : w ∈ s.workers) (hx : w.isExited = false) : s.cancelled = false := by
  cases hc : s.cancelled with
  | false => rfl
  | true =>
    obtain ⟨res, hf⟩ := h.alive hc
    exact absurd hf (not_returned_of_mem s h w hw hx res)

theorem not_cancelled_of_feeding (s : Pool) (h : Inv s) (p : List GoString)
    (hf : s.feeder = .feeding p) : s.cancelled = false := by
  cases hc : s.cancelled with
  | false => rfl
  | true =>
    obtain ⟨res, hr⟩ := h.alive hc
    rw [hf] at hr
    cases hr

/-- The feeder's steps keep the invariant. -/
theorem step_inv_feeder (otherHost : GoString → GoString → Except UrlError GoString)
    (httpGet : GoString → Except Error GoString) (s s1 : Pool) (a : Action) (h : Inv s)
    (ha : a = .send ∨ a = .feederDone ∨ a = .close ∨ a = .wait)
    (hs : step otherHost httpGet s a = some s1) : Inv s1 := by
  rcases ha with ha | ha | ha | ha <;> subst ha <;> simp only [step] at hs
  · split at hs
    · rename_i url rest hf
      split at hs
      · cases hs
        have hcl : s.closed = false := h.opened.mpr ⟨_, hf⟩
        exact {
          nworkers := h.nworkers
          alive := fun hc => by
            rw [not_cancelled_of_feeding s h _ hf] at hc
            cases hc
          noErr := h.noErr
          groupErr := h.groupErr
          opened := ⟨fun _ => ⟨_, rfl⟩, fun _ => hcl⟩
          drained := fun hw => by
            have := (h.drained hw).2
            rw [hcl] at this
            cases this
          final := fun res hr => by cases hr }
      · cases hs
    · cases hs
  · split at hs
    · rename_i url rest hf
      split at hs
      · rename_i hc
        rw [not_cancelled_of_feeding s h _ hf] at hc
        cases hc
      · cases hs
    · cases hs
  · split at hs
    · rename_i hf
      cases hs
      have hcl : s.closed = false := h.opened.mpr ⟨_, hf⟩
      exact {
        nworkers := h.nworkers
        alive := fun hc => by
          rw [not_cancelled_of_feeding s h _ hf] at hc
          cases hc
        noErr := h.noErr
        groupErr := h.groupErr
        opened := ⟨fun hc => (by cases hc), fun ⟨p, hp⟩ => (by cases hp)⟩
        drained := fun hw => by
          have := (h.drained hw).2
          rw [hcl] at this
          cases this
        final := fun res hr => by cases hr }
    · cases hs
  · split at hs
    · rename_i hf
      split at hs
      · rename_i hall
        cases hs
        have hcl : s.closed = true := by
          cases hc : s.closed with
          | true => rfl
          | false =>
            obtain ⟨p, hp⟩ := h.opened.mp hc
            rw [hf] at hp
            cases hp
        exact {
          nworkers := h.nworkers
          alive := fun _ => ⟨_, rfl⟩
          noErr := h.noErr
          groupErr := h.groupErr
          opened := ⟨fun hc => (by rw [hcl] at hc; cases hc), fun ⟨p, hp⟩ => (by cases hp)⟩
          drained := h.drained
          final := fun res hr => by
            cases hr
            exact ⟨rfl, hall⟩ }
      · cases hs
    · cases hs

/-- The workers' steps keep the invariant. -/
theorem step_inv_worker (otherHost : GoString → GoString → Except UrlError GoString)
    (httpGet : GoString → Except Error GoString) (s s1 : Pool) (i : Nat) (a : Action) (h : Inv s)
    (ha : a = .recv i ∨ a = .recvClosed i ∨ a = .workerDone i ∨ a = .process i)
    (hs : step otherHost httpGet s a = some s1) : Inv s1 := by
  rcases ha with ha | ha | ha | ha <;> subst ha <;> simp only [step] at hs
  · split at hs
    · rename_i url rest hi hch
      cases hs
      obtain ⟨l1, l2, e, hset⟩ := set_decomp _ i _ hi
      have hmem := mem_of_getElem? _ i _ hi
      exact {
        nworkers := by simpa using h.nworkers
        alive := h.alive
        noErr := fun err hm => by
          simp only [hset] at hm
          refine h.noErr err ?_
          rw [e]
          rcases List.mem_append.mp hm with hm | hm
          · exact List.mem_append_left _ hm
          · rcases List.mem_cons.mp hm with hm | hm
            · cases hm
            · exact List.mem_append_right _ (List.mem_cons_of_mem _ hm)
        groupErr := h.groupErr
        opened := h.opened
        drained := fun ⟨w, hw, hx⟩ => by
          simp only [hset] at hw
          have hw2 : w ∈ s.workers := by
            rw [e]
            rcases List.mem_append.mp hw with hm | hm
            · exact List.mem_append_left _ hm
            · rcases List.mem_cons.mp hm with hm | hm
              · subst hm; cases hx
              · exact List.mem_append_right _ (List.mem_cons_of_mem _ hm)
          have := (h.drained ⟨w, hw2, hx⟩).1
          rw [hch] at this
          cases this
        final := fun res hr =>
          absurd hr (not_returned_of_mem s h _ hmem rfl res) }
    · cases hs
  · split at hs
    · rename_i hi hch
      split at hs
      · rename_i hcl
        cases hs
        obtain ⟨l1, l2, e, hset⟩ := set_decomp _ i _ hi
        have hmem := mem_of_getElem? _ i _ hi
        exact {
          nworkers := by simpa using h.nworkers
          alive := h.alive
          noErr := fun err hm => by
            simp only [hset] at hm
            refine h.noErr err ?_
            rw [e]
            rcases List.mem_append.mp hm with hm | hm
            · exact List.mem_append_left _ hm
            · rcases List.mem_cons.mp hm with hm | hm
              · cases hm
              · exact List.mem_append_right _ (List.mem_cons_of_mem _ hm)
          groupErr := h.groupErr
          opened := h.opened
          drained := fun _ => ⟨hch, hcl⟩
          final := fun res hr =>
            absurd hr (not_returned_of_mem s h _ hmem rfl res) }
      · cases hs
    · cases hs
  · split at hs
    · rename_i hi
      split at hs
      · rename_i hc
        have hmem := mem_of_getElem? _ i _ hi
        rw [not_cancelled_of_mem s h _ hmem rfl] at hc
        cases hc
      · cases hs
    · cases hs
  · split at hs
    · rename_i url hi
      cases hs
      obtain ⟨l1, l2, e, hset⟩ := set_decomp _ i _ hi
      have hmem := mem_of_getElem? _ i _ hi
      exact {
        nworkers := by simpa using h.nworkers
        alive := h.alive
        noErr := fun err hm => by
          simp only [hset] at hm
          refine h.noErr err ?_
          rw [e]
          rcases List.mem_append.mp hm with hm | hm
          · exact List.mem_append_left _ hm
          · rcases List.mem_cons.mp hm with hm | hm
            · cases hm
            · exact List.mem_append_right _ (List.mem_cons_of_mem _ hm)
        groupErr := h.groupErr
        opened := h.opened
        drained := fun ⟨w, hw, hx⟩ => by
          simp only [hset] at hw
          have hw2 : w ∈ s.workers := by
            rw [e]
            rcases List.mem_append.mp hw with hm | hm
            · exact List.mem_append_left _ hm
            · rcases List.mem_cons.mp hm with hm | hm
              · subst hm; cases hx
              · exact List.mem_append_right _ (List.mem_cons_of_mem _ hm)
          exact h.drained ⟨w, hw2, hx⟩
        final := fun res hr =>
          absurd hr (not_returned_of_mem s h _ hmem rfl res) }
    · cases hs

/-- Every step keeps the invariant. -/
theorem step_inv (otherHost : GoString → GoString → Except UrlError GoString)
    (httpGet : GoString → Except Error GoString) (s s1 : Pool) (a : Action) (h : Inv s)
    (hs : step otherHost httpGet s a = some s1) : Inv s1 := by
  cases a with
  | send => exact step_inv_feeder otherHost httpGet s s1 _ h (Or.inl rfl) hs
  | feederDone => exact step_inv_feeder otherHost httpGet s s1 _ h (Or.inr (Or.inl rfl)) hs
  | close => exact step_inv_feeder otherHost httpGet s s1 _ h (Or.inr (Or.inr (Or.inl rfl))) hs
  | wait => exact step_inv_feeder otherHost httpGet s s1 _ h (Or.inr (Or.inr (Or.inr rfl))) hs
  | recv i => exact step_inv_worker otherHost httpGet s s1 i _ h (Or.inl rfl) hs
  | recvClosed i => exact step_inv_worker otherHost httpGet s s1 i _ h (Or.inr (Or.inl rfl)) hs
  | workerDone i =>
    exact step_inv_worker otherHost httpGet s s1 i _ h (Or.inr (Or.inr (Or.inl rfl))) hs
  | process i =>
    exact step_inv_worker otherHost httpGet s s1 i _ h (Or.inr (Or.inr (Or.inr rfl))) hs

/-- Every state of a run from a state of the invariant satisfies the invariant. -/
theorem runPool_inv (otherHost : GoString → GoString → Except UrlError GoString)
    (sched : List ((GoString → Except Error GoString) × Action)) (s s1 : Pool) (h : Inv s)
    (hs : runPool otherHost s sched = some s1) : Inv s1 := by
  induction sched generalizing s with
  | nil =>
    simp only [runPool, Option.some.injEq] at hs
    rw [← hs]; exact h
  | cons x rest ih =>
    rw [runPool] at hs
    cases hst : step otherHost x.1 s x.2 with
    | none => rw [hst] at hs; cases hs
    | some s2 =>
      rw [hst] at hs
      exact ih s2 (step_inv otherHost x.1 s s2 x.2 h hst) hs

theorem worker_cases (ws : List Worker) :
    (∃ i : Nat, ws[i]? = some Worker.idle) ∨
      (∃ (i : Nat) (u : GoString), ws[i]? = some (Worker.busy u)) ∨
      ws.all Worker.isExited = true := by
  induction ws with
  | nil => exact Or.inr (Or.inr rfl)
  | cons w ws ih =>
    cases w with
    | idle => exact Or.inl ⟨0, by simp⟩
    | busy u => exact Or.inr (Or.inl ⟨0, u, by simp⟩)
    | exited e =>
      rcases ih with ⟨i, hi⟩ | ⟨i, u, hi⟩ | hall
      · exact Or.inl ⟨i + 1, by simpa using hi⟩
      · exact Or.inr (Or.inl ⟨i + 1, u, by simpa using hi⟩)
      · exact Or.inr (Or.inr (by simpa [Worker.isExited] using hall))

/-- Before the return some step can always be taken: the pool does not deadlock. -/
theorem step_progress (otherHost : GoString → GoString → Except UrlError GoString)
    (httpGet : GoString → Except Error GoString) (s : Pool) (h : Inv s)
    (hn : ∀ res, s.feeder ≠ .returned res) :
    ∃ a s1, step otherHost httpGet s a = some s1 := by
  suffices hsome : ∃ a, (step otherHost httpGet s a).isSome = true by
    obtain ⟨a, ha⟩ := hsome
    exact ⟨a, Option.isSome_iff_exists.mp ha⟩
  have hw : ∃ w, w ∈ s.workers := by
    cases hws : s.workers with
    | nil => have := h.nworkers; rw [hws] at this; cases this
    | cons w ws => exact ⟨w, by simp⟩
  have hbusy : ∀ (i : Nat) (u : GoString), s.workers[i]? = some (Worker.busy u) →
      ∃ a, (step otherHost httpGet s a).isSome = true :=
    fun i u hi => ⟨.process i, by simp [step, hi]⟩
  have hrecv : ∀ (i : Nat) (u : GoString) (rest : List GoString),
      s.workers[i]? = some Worker.idle → s.urlChan = u :: rest →
      ∃ a, (step otherHost httpGet s a).isSome = true :=
    fun i u rest hi hch => ⟨.recv i, by simp [step, hi, hch]⟩
  cases hf : s.feeder with
  | returned res => exact absurd hf (hn res)
  | feeding p =>
    cases p with
    | nil => exact ⟨.close, by simp [step, hf]⟩
    | cons u rest =>
      by_cases hlen : s.urlChan.length < 5
      · exact ⟨.send, by simp [step, hf, hlen]⟩
      · rcases worker_cases s.workers with ⟨i, hi⟩ | ⟨i, v, hi⟩ | hall
        · cases hch : s.urlChan with
          | nil => rw [hch] at hlen; simp at hlen
          | cons v q => exact hrecv i v q hi hch
        · exact hbusy i v hi
        · obtain ⟨w, hw⟩ := hw
          have := (h.drained ⟨w, hw, isExited_of_all _ w hall hw⟩).1
          rw [this] at hlen
          simp at hlen
  | waiting =>
    have hcl : s.closed = true := by
      cases hc : s.closed with
      | true => rfl
      | false =>
        obtain ⟨p, hp⟩ := h.opened.mp hc
        rw [hf] at hp
        cases hp
    rcases worker_cases s.workers with ⟨i, hi⟩ | ⟨i, v, hi⟩ | hall
    · cases hch : s.urlChan with
      | nil => exact ⟨.recvClosed i, by simp [step, hi, hch, hcl]⟩
      | cons v q => exact hrecv i v q hi hch
    · exact hbusy i v hi
    · exact ⟨.wait, by simp [step, hf, hall]⟩

/-- Every step lowers the measure. -/
theorem step_measure (otherHost : GoString → GoString → Except UrlError GoString)
    (httpGet : GoString → Except Error GoString) (s s1 : Pool) (a : Action)
    (hs : step otherHost httpGet s a = some s1) : measure s1 < measure s := by
  cases a <;> simp only [step] at hs
  · split at hs
    · rename_i url rest hf
      split at hs
      · cases hs
        simp only [measure, hf, pendingOf, List.length_append, List.length_cons,
          List.length_nil]
        omega
      · cases hs
    · cases hs
  · split at hs
    · rename_i url rest hf
      split at hs
      · cases hs
        simp only [measure, hf, pendingOf, List.length_cons, List.length_nil]
        omega
      · cases hs
    · cases hs
  · split at hs
    · rename_i hf
      cases hs
      simp only [measure, hf, pendingOf, List.length_nil]
      omega
    · cases hs
  · split at hs
    · rename_i hf
      split at hs
      · cases hs
        simp only [measure, hf, pendingOf, List.length_nil]
        omega
      · cases hs
    · cases hs
  · split at hs
    · rename_i i url rest hi hch
      cases hs
      obtain ⟨l1, l2, e, hset⟩ := set_decomp _ _ _ hi
      simp only [measure, hset, hch]
      rw [e]
      simp [inflight_append, inflight, List.filter_append, List.filter_cons, Worker.isExited]
      omega
    · cases hs
  · split at hs
    · rename_i i hi hch
      split at hs
      · cases hs
        obtain ⟨l1, l2, e, hset⟩ := set_decomp _ _ _ hi
        simp only [measure, hset, hch]
        rw [e]
        simp [inflight_append, inflight, List.filter_append, List.filter_cons,
          Worker.isExited]
      · cases hs
    · cases hs
  · split at hs
    · rename_i i hi
      split at hs
      · cases hs
        obtain ⟨l1, l2, e, hset⟩ := set_decomp _ _ _ hi
        simp only [measure, hset]
        rw [e]
        simp [inflight_append, inflight, List.filter_append, List.filter_cons,
          Worker.isExited]
      · cases hs
    · cases hs
  · split at hs
    · rename_i i url hi
      cases hs
      obtain ⟨l1, l2, e, hset⟩ := set_decomp _ _ _ hi
      simp only [measure, hset]
      rw [e]
      simp [inflight_append, inflight, List.filter_append, List.filter_cons, Worker.isExited]
    · cases hs

/-- A run is no longer than the measure of its first state. -/
theorem runPool_length (otherHost : GoString → GoString → Except UrlError GoString)
    (sched : List ((GoString → Except Error GoString) × Action)) (s s1 : Pool)
    (hs : runPool otherHost s sched = some s1) :
    measure s1 + sched.length ≤ measure s := by
  induction sched generalizing s with
  | nil =>
    simp only [runPool, Option.some.injEq] at hs
    rw [← hs]; simp
  | cons x rest ih =>
    rw [runPool] at hs
    cases hst : step otherHost x.1 s x.2 with
    | none => rw [hst] at hs; cases hs
    | some s2 =>
      rw [hst] at hs
      have h1 := ih s2 hs
      have h2 := step_measure otherHost x.1 s s2 x.2 hst
      simp only [List.length_cons]
      omega

/-- From every state of the invariant, whatever the fetches give from then on, a run leads
to the return. -/
theorem runPool_completes (otherHost : GoString → GoString → Except UrlError GoString)
    (httpGet : GoString → Except Error GoString) (n : Nat) :
    ∀ s, Inv s → measure s ≤ n →
      ∃ (acts : List Action) (s1 : Pool) (res : List GoString),
        runPool otherHost s (acts.map fun a => (httpGet, a)) = some s1 ∧
        s1.feeder = .returned res := by
  induction n with
  | zero =>
    intro s h hm
    cases hf : s.feeder with
    | returned res => exact ⟨[], s, res, rfl, hf⟩
    | feeding p => simp [measure, hf] at hm
    | waiting => simp [measure, hf] at hm
  | succ n ih =>
    intro s h hm
    by_cases hr : ∃ res, s.feeder = .returned res
    · obtain ⟨res, hf⟩ := hr
      exact ⟨[], s, res, rfl, hf⟩
    · obtain ⟨a, s1, hst⟩ :=
        step_progress otherHost httpGet s h (fun res hf => hr ⟨res, hf⟩)
      have hlt := step_measure otherHost httpGet s s1 a hst
      obtain ⟨acts, s2, res, hex, hf⟩ :=
        ih s1 (step_inv otherHost httpGet s s1 a h hst) (by omega)
      refine ⟨a :: acts, s2, res, ?_, hf⟩
      rw [List.map_cons, runPool]
      simp only [hst]
      exact hex

theorem runPool_append (otherHost : GoString → GoString → Except UrlError GoString)
    (sched1 sched2 : List ((GoString → Except Error GoString) × Action))
    (s s1 : Pool) (h : runPool otherHost s sched1 = some s1) :
    runPool otherHost s (sched1 ++ sched2) = runPool otherHost s1 sched2 := by
  induction sched1 generalizing s with
  | nil =>
    simp only [runPool, Option.some.injEq] at h
    rw [h]; rfl
  | cons x rest ih =>
    rw [runPool] at h
    rw [List.cons_append, runPool]
    cases hst : step otherHost x.1 s x.2 with
    | none => rw [hst] at h; cases h
    | some s2 =>
      rw [hst] at h
      exact ih s2 h

theorem fetchURLsConcurrently_eq_some (otherHost : GoString → GoString → Except UrlError GoString)
    (urls : List GoString) (sched : List ((GoString → Except Error GoString) × Action))
    (res : List GoString) :
    fetchURLsConcurrently otherHost urls sched = some res ↔
      ∃ s, runPool otherHost (Pool.init urls) sched = some s ∧ s.feeder = .returned res := by
  unfold fetchURLsConcurrently
  constructor
  · intro h
    split at h
    · cases h
    · rename_i s hs
      split at h
      · rename_i r hf
        cases h
        exact ⟨s, hs, hf⟩
      · cases h
  · rintro ⟨s, hs, hf⟩
    rw [hs]
    simp only [hf]

theorem filterMap_length_eq {α β : Type} (f : α → Option β) (l : List α)
    (h : (l.filterMap f).length = l.length) : ∀ x ∈ l, ∃ y, f x = some y := by
  induction l with
  | nil => intro x hx; cases hx
  | cons a l ih =>
    have hle := List.length_filterMap_le f l
    cases hf : f a with
    | none =>
      rw [List.filterMap_cons_none hf, List.length_cons] at h
      omega
    | some y =>
      rw [List.filterMap_cons_some hf, List.length_cons, List.length_cons] at h
      intro x hx
      rcases List.mem_cons.mp hx with hx | hx
      · exact ⟨y, by rw [hx, hf]⟩
      · exact ih (by omega) x hx

theorem filterMap_length_add {α β : Type} (f : α → Option β) (l : List α) :
    (l.filterMap f).length + (l.filter fun x => (f x).isNone).length = l.length := by
  induction l with
  | nil => rfl
  | cons a l ih =>
    cases hf : f a with
    | none =>
      rw [List.filterMap_cons_none hf, List.filter_cons_of_pos (by simp [hf])]
      simp only [List.length_cons]
      omega
    | some y =>
      rw [List.filterMap_cons_some hf, List.filter_cons_of_neg (by simp [hf])]
      simp only [List.length_cons]
      omega

/-- At the return the result is the shared list, the queue is empty and no worker holds an
item. -/
theorem returned_state (s : Pool) (h : Inv s) (res : List GoString)
    (hf : s.feeder = .returned res) :
    res = s.friendlyURLs ∧ s.urlChan = [] ∧ inflight s.workers = [] := by
  obtain ⟨hres, hall⟩ := h.final res hf
  have hin := inflight_of_all_exited _ hall
  have hw : ∃ w, w ∈ s.workers := by
    cases hws : s.workers with
    | nil => have := h.nworkers; rw [hws] at this; cases this
    | cons w ws => exact ⟨w, by simp⟩
  obtain ⟨w, hw⟩ := hw
  exact ⟨hres, (h.drained ⟨w, hw, isExited_of_all _ w hall hw⟩).1, hin⟩

theorem measure_init (urls : List GoString) :
    measure (Pool.init urls) = 3 * urls.length + 7 := by
  simp [measure, Pool.init, pendingOf, inflight, List.replicate, Worker.isExited]

/-- A run under one fetch for all its steps is a run of the pool. -/
theorem exec_eq_runPool (otherHost : GoString → GoString → Except UrlError GoString)
    (httpGet : GoString → Except Error GoString) (acts : List Action) (s : Pool) :
    exec otherHost httpGet s acts = runPool otherHost s (acts.map fun a => (httpGet, a)) := by
  induction acts generalizing s with
  | nil => rfl
  | cons a acts ih =>
    rw [exec, List.map_cons, runPool]
    cases step otherHost httpGet s a with
    | none => rfl
    | some s1 => exact ih s1

/-! ## What a run pushes, pulls and processes -/

theorem step_feederDone_none (otherHost : GoString → GoString → Except UrlError GoString)
    (httpGet : GoString → Except Error GoString) (s : Pool) (h : Inv s) :
    step otherHost httpGet s .feederDone = none := by
  simp only [step]
  split
  · rename_i url rest hf
    rw [not_cancelled_of_feeding s h _ hf]
    rfl
  · rfl

theorem step_workerDone_none (otherHost : GoString → GoString → Except UrlError GoString)
    (httpGet : GoString → Except Error GoString) (s : Pool) (h : Inv s) (i : Nat) :
    step otherHost httpGet s (.workerDone i) = none := by
  simp only [step]
  split
  · rename_i hi
    rw [not_cancelled_of_mem s h _ (mem_of_getElem? _ i _ hi) rfl]
    rfl
  · rfl

/-- No run from a state of the invariant takes a step on `ctx.Done()`. -/
theorem runPool_no_done (otherHost : GoString → GoString → Except UrlError GoString)
    (sched : List ((GoString → Except Error GoString) × Action)) (s s1 : Pool) (h : Inv s)
    (hs : runPool otherHost s sched = some s1) :
    ∀ x ∈ sched, x.2 ≠ Action.feederDone ∧ ∀ i, x.2 ≠ Action.workerDone i := by
  induction sched generalizing s with
  | nil => intro x hx; cases hx
  | cons y rest ih =>
    rw [runPool] at hs
    cases hst : step otherHost y.1 s y.2 with
    | none => rw [hst] at hs; cases hs
    | some s2 =>
      rw [hst] at hs
      have ih2 := ih s2 (step_inv otherHost y.1 s s2 y.2 h hst) hs
      intro x hx
      rcases List.mem_cons.mp hx with hx | hx
      · subst hx
        constructor
        · intro he
          rw [he, step_feederDone_none otherHost x.1 s h] at hst
          cases hst
        · intro i he
          rw [he, step_workerDone_none otherHost x.1 s h] at hst
          cases hst
      · exact ih2 x hx

/-- The items pushed during a run are the first of the unsent ones, in order. -/
theorem pushed_pending (otherHost : GoString → GoString → Except UrlError GoString)
    (sched : List ((GoString → Except Error GoString) × Action)) (s s1 : Pool) (h : Inv s)
    (hs : runPool otherHost s sched = some s1) :
    pendingOf s.feeder = pushed otherHost s sched ++ pendingOf s1.feeder := by
  induction sched generalizing s with
  | nil =>
    simp only [runPool, Option.some.injEq] at hs
    rw [← hs]; rfl
  | cons x rest ih =>
    obtain ⟨g, a⟩ := x
    rw [runPool] at hs
    simp only [] at hs
    cases hst : step otherHost g s a with
    | none => rw [hst] at hs; cases hs
    | some s2 =>
      rw [hst] at hs
      have ih2 := ih s2 (step_inv otherHost g s s2 a h hst) hs
      have hnd := step_feederDone_none otherHost g s h
      simp only [pushed, hst]
      cases a <;> simp only [step] at hst
      · split at hst
        · rename_i url rest hf
          split at hst
          · cases hst
            simp only [hf, pendingOf] at ih2 ⊢
            exact congrArg (List.cons url) ih2
          · cases hst
        · cases hst
      · simp only [step] at hnd
        rw [hnd] at hst
        cases hst
      · split at hst
        · rename_i hf
          cases hst
          simp only [hf, pendingOf] at ih2 ⊢
          exact ih2
        · cases hst
      · split at hst
        · rename_i hf
          split at hst
          · cases hst
            simp only [hf, pendingOf] at ih2 ⊢
            exact ih2
          · cases hst
        · cases hst
      · split at hst
        · cases hst; exact ih2
        · cases hst
      · split at hst
        · split at hst
          · cases hst; exact ih2
          · cases hst
        · cases hst
      · split at hst
        · split at hst
          · cases hst; exact ih2
          · cases hst
        · cases hst
      · split at hst
        · cases hst; exact ih2
        · cases hst

/-- The items queued at the start of a run and those pushed during it are those pulled
during it and those queued at its end. -/
theorem pulled_pushed (otherHost : GoString → GoString → Except UrlError GoString)
    (sched : List ((GoString → Except Error GoString) × Action)) (s s1 : Pool)
    (hs : runPool otherHost s sched = some s1) :
    (s.urlChan : Multiset GoString) + (pushed otherHost s sched : Multiset GoString)
      = (((pulled otherHost s sched).map Prod.snd : List GoString) : Multiset GoString)
        + (s1.urlChan : Multiset GoString) := by
  induction sched generalizing s with
  | nil =>
    simp only [runPool, Option.some.injEq] at hs
    rw [← hs]
    simp [pushed, pulled]
  | cons x rest ih =>
    obtain ⟨g, a⟩ := x
    rw [runPool] at hs
    simp only [] at hs
    cases hst : step otherHost g s a with
    | none => rw [hst] at hs; cases hs
    | some s2 =>
      rw [hst] at hs
      have ih2 := ih s2 hs
      simp only [pushed, pulled, hst]
      cases a <;> simp only [step] at hst
      · split at hst
        · rename_i url rest hf
          split at hst
          · cases hst
            simp only [hf] at ih2 ⊢
            rw [← ih2]
            simp
          · cases hst
        · cases hst
      · split at hst
        · split at hst
          · cases hst; exact ih2
          · cases hst
        · cases hst
      · split at hst
        · cases hst; exact ih2
        · cases hst
      · split at hst
        · split at hst
          · cases hst; exact ih2
          · cases hst
        · cases hst
      · split at hst
        · rename_i i url rest hi hch
          cases hst
          simp only [hch] at ih2 ⊢
          rw [List.map_cons, ← Multiset.cons_coe, ← Multiset.cons_coe, Multiset.cons_add,
            Multiset.cons_add, ih2]
        · cases hst
      · split at hst
        · rename_i i hi hch
          split at hst
          · cases hst
            simp only [hch] at ih2 ⊢
            exact ih2
          · cases hst
        · cases hst
      · split at hst
        · split at hst
          · cases hst
            cases hch : s.urlChan <;> simp only [hch] at ih2 ⊢ <;> exact ih2
          · cases hst
        · cases hst
      · split at hst
        · cases hst
          cases hch : s.urlChan <;> simp only [hch] at ih2 ⊢ <;> exact ih2
        · cases hst

/-- The shared list at the end of a run is the one at its start followed by the links of
the items processed during the run, in the order of completion. -/
theorem processed_results (otherHost : GoString → GoString → Except UrlError GoString)
    (sched : List ((GoString → Except Error GoString) × Action)) (s s1 : Pool)
    (hs : runPool otherHost s sched = some s1) :
    s1.friendlyURLs = s.friendlyURLs ++ (processed otherHost s sched).filterMap Prod.snd := by
  induction sched generalizing s with
  | nil =>
    simp only [runPool, Option.some.injEq] at hs
    rw [← hs]
    simp [processed]
  | cons x rest ih =>
    obtain ⟨g, a⟩ := x
    rw [runPool] at hs
    simp only [] at hs
    cases hst : step otherHost g s a with
    | none => rw [hst] at hs; cases hs
    | some s2 =>
      rw [hst] at hs
      have ih2 := ih s2 hs
      simp only [processed, hst]
      cases a <;> simp only [step] at hst
      · split at hst
        · split at hst
          · cases hst; exact ih2
          · cases hst
        · cases hst
      · split at hst
        · split at hst
          · cases hst; exact ih2
          · cases hst
        · cases hst
      · split at hst
        · cases hst; exact ih2
        · cases hst
      · split at hst
        · split at hst
          · cases hst; exact ih2
          · cases hst
        · cases hst
      · split at hst
        · cases hst; exact ih2
        · cases hst
      · split at hst
        · split at hst
          · cases hst; exact ih2
          · cases hst
        · cases hst
      · split at hst
        · split at hst
          · cases hst; exact ih2
          · cases hst
        · cases hst
      · split at hst
        · rename_i i url hi
          cases hst
          simp only [hi] at ih2 ⊢
          rw [ih2, processItem_eq]
          cases hl : linkOf otherHost g url <;> simp [hl]
        · cases hst

theorem coe_append_cons (A B P : List GoString) (u : GoString) :
    ((A ++ B : List GoString) : Multiset GoString) + ((u :: P : List GoString) : Multiset GoString)
      = ((A ++ u :: B : List GoString) : Multiset GoString) + (P : Multiset GoString) := by
  rw [Multiset.coe_add, Multiset.coe_add, Multiset.coe_eq_coe]
  have h1 : List.Perm ((A ++ B) ++ u :: P) (u :: ((A ++ B) ++ P)) := List.perm_middle
  have h2 : List.Perm ((A ++ u :: B) ++ P) (u :: ((A ++ B) ++ P)) := by
    simp only [List.append_assoc, List.cons_append]
    exact List.perm_middle
  exact h1.trans h2.symm

theorem coe_cons_append (A B P : List GoString) (u : GoString) :
    ((A ++ u :: B : List GoString) : Multiset GoString) + (P : Multiset GoString)
      = u ::ₘ (((A ++ B : List GoString) : Multiset GoString) + (P : Multiset GoString)) := by
  rw [← coe_append_cons, ← Multiset.cons_coe, Multiset.add_cons]

/-- The items held at the start of a run and those pulled during it are those processed
during it and those held at its end. -/
theorem processed_pulled (otherHost : GoString → GoString → Except UrlError GoString)
    (sched : List ((GoString → Except Error GoString) × Action)) (s s1 : Pool)
    (hs : runPool otherHost s sched = some s1) :
    ((inflight s.workers : List GoString) : Multiset GoString)
        + (((pulled otherHost s sched).map Prod.snd : List GoString) : Multiset GoString)
      = (((processed otherHost s sched).map Prod.fst : List GoString) : Multiset GoString)
        + ((inflight s1.workers : List GoString) : Multiset GoString) := by
  induction sched generalizing s with
  | nil =>
    simp only [runPool, Option.some.injEq] at hs
    rw [← hs]
    simp [processed, pulled]
  | cons x rest ih =>
    obtain ⟨g, a⟩ := x
    rw [runPool] at hs
    simp only [] at hs
    cases hst : step otherHost g s a with
    | none => rw [hst] at hs; cases hs
    | some s2 =>
      rw [hst] at hs
      have ih2 := ih s2 hs
      simp only [processed, pulled, hst]
      cases a <;> simp only [step] at hst
      · split at hst
        · split at hst
          · cases hst
            cases hch : s.urlChan <;> simp only [hch] at ih2 ⊢ <;> exact ih2
          · cases hst
        · cases hst
      · split at hst
        · split at hst
          · cases hst
            cases hch : s.urlChan <;> simp only [hch] at ih2 ⊢ <;> exact ih2
          · cases hst
        · cases hst
      · split at hst
        · cases hst
          cases hch : s.urlChan <;> simp only [hch] at ih2 ⊢ <;> exact ih2
        · cases hst
      · split at hst
        · split at hst
          · cases hst
            cases hch : s.urlChan <;> simp only [hch] at ih2 ⊢ <;> exact ih2
          · cases hst
        · cases hst
      · split at hst
        · rename_i i url rest hi hch
          cases hst
          obtain ⟨l1, l2, e, hset⟩ := set_decomp _ _ _ hi
          simp only [hch, hset, inflight_append, inflight] at ih2 ⊢
          rw [e, inflight_append]
          simp only [inflight]
          rw [List.map_cons, ← ih2]
          exact coe_append_cons _ _ _ _
        · cases hst
      · split at hst
        · rename_i i hi hch
          split at hst
          · cases hst
            obtain ⟨l1, l2, e, hset⟩ := set_decomp _ _ _ hi
            simp only [hch, hset, inflight_append, inflight] at ih2 ⊢
            rw [e, inflight_append]
            simp only [inflight]
            exact ih2
          · cases hst
        · cases hst
      · split at hst
        · rename_i i hi
          split at hst
          · cases hst
            obtain ⟨l1, l2, e, hset⟩ := set_decomp _ _ _ hi
            cases hch : s.urlChan <;>
              simp only [hch, hset, inflight_append, inflight] at ih2 ⊢ <;>
              rw [e, inflight_append] <;> simp only [inflight] <;> exact ih2
          · cases hst
        · cases hst
      · split at hst
        · rename_i i url hi
          cases hst
          obtain ⟨l1, l2, e, hset⟩ := set_decomp _ _ _ hi
          simp only [hi, hset, inflight_append, inflight] at ih2 ⊢
          rw [e, inflight_append]
          simp only [inflight]
          rw [List.map_cons, ← Multiset.cons_coe, Multiset.cons_add, ← ih2]
          exact coe_cons_append _ _ _ _
        · cases hst

/-- Every entry of the processed items is an item with its link under the fetch of a step
of the schedule. -/
theorem processed_mem (otherHost : GoString → GoString → Except UrlError GoString)
    (sched : List ((GoString → Except Error GoString) × Action)) (s : Pool) :
    ∀ e ∈ processed otherHost s sched, ∃ x ∈ sched, e.2 = linkOf otherHost x.1 e.1 := by
  induction sched generalizing s with
  | nil => intro e he; simp [processed] at he
  | cons x rest ih =>
    intro e he
    simp only [processed] at he
    cases hst : step otherHost x.1 s x.2 with
    | none => rw [hst] at he; cases he
    | some s2 =>
      rw [hst] at he
      simp only [] at he
      have hrest : e ∈ processed otherHost s2 rest →
          ∃ y ∈ x :: rest, e.2 = linkOf otherHost y.1 e.1 := by
        intro hm
        obtain ⟨y, hy, hey⟩ := ih s2 e hm
        exact ⟨y, List.mem_cons_of_mem _ hy, hey⟩
      split at he
      · split at he
        · rcases List.mem_cons.mp he with he | he
          · exact ⟨x, List.mem_cons_self _ _, by rw [he]⟩
          · exact hrest he
        · exact hrest he
      · exact hrest he

/-- A run from the start to the return: the result is the list of the links of the items
processed, in the order of completion; every input URL has been pushed, in order; and the
items pulled and the items processed are the input URLs up to order. -/
theorem returned_run (otherHost : GoString → GoString → Except UrlError GoString)
    (urls : List GoString)
    (sched : List ((GoString → Except Error GoString) × Action)) (s : Pool)
    (res : List GoString) (hrun : runPool otherHost (Pool.init urls) sched = some s)
    (hf : s.feeder = .returned res) :
    res = (processed otherHost (Pool.init urls) sched).filterMap Prod.snd ∧
    pushed otherHost (Pool.init urls) sched = urls ∧
    List.Perm ((pulled otherHost (Pool.init urls) sched).map Prod.snd) urls ∧
    List.Perm ((processed otherHost (Pool.init urls) sched).map Prod.fst) urls := by
  have hinit := init_inv urls
  have hinv := runPool_inv otherHost sched _ s hinit hrun
  obtain ⟨hres, hch, hin⟩ := returned_state s hinv res hf
  have hA := processed_results otherHost sched _ s hrun
  have hB := processed_pulled otherHost sched _ s hrun
  have hC := pulled_pushed otherHost sched _ s hrun
  have hD := pushed_pending otherHost sched _ s hinit hrun
  have hp : pushed otherHost (Pool.init urls) sched = urls := by
    rw [hf] at hD
    simpa [pendingOf, Pool.init] using hD.symm
  have hpull : List.Perm ((pulled otherHost (Pool.init urls) sched).map Prod.snd) urls := by
    rw [hch, hp] at hC
    have : ((urls : List GoString) : Multiset GoString)
        = (((pulled otherHost (Pool.init urls) sched).map Prod.snd : List GoString) :
            Multiset GoString) := by
      simpa [Pool.init] using hC
    exact (Multiset.coe_eq_coe.mp this).symm
  have hproc : List.Perm ((processed otherHost (Pool.init urls) sched).map Prod.fst)
      ((pulled otherHost (Pool.init urls) sched).map Prod.snd) := by
    rw [hin] at hB
    have : (((pulled otherHost (Pool.init urls) sched).map Prod.snd : List GoString) :
          Multiset GoString)
        = (((processed otherHost (Pool.init urls) sched).map Prod.fst : List GoString) :
            Multiset GoString) := by
      simpa [Pool.init, inflight, List.replicate] using hB
    exact (Multiset.coe_eq_coe.mp this).symm
  refine ⟨?_, hp, hpull, hproc.trans hpull⟩
  rw [hres, hA]
  simp [Pool.init]

theorem mem_map_const (httpGet : GoString → Except Error GoString) (acts : List Action) :
    ∀ x ∈ acts.map (fun a => (httpGet, a)), x.1 = httpGet := by
  intro x hx
  obtain ⟨a, _, ha⟩ := List.mem_map.mp hx
  rw [← ha]

/-- C6: whatever the scheduler does and whatever the fetches give, also when two requests
for one URL end differently, `fetchURLsConcurrently` returns: a run of its goroutines takes
at most `3 * |urls| + 7` steps, is never stuck before the return and can always be
continued to it. The list returned is the list of the links `- [title](resolvedURL)` of the
items that resolved and fetched, in the order of completion, where the items processed are
the input URLs up to order: one entry per URL that succeeded and none for one that failed.
When every fetch of the run is answered by one function of the URL, the result is up to
order the list of the links of the input URLs under it. So the result is no longer than
the input, as long as the input only when every item succeeded, and shorter by the number
of failed items: 12 inputs with 3 failures give 9 entries. -/
theorem fetchURLsConcurrently_result (otherHost : GoString → GoString → Except UrlError GoString)
    (urls : List GoString) :
    (∀ httpGet : GoString → Except Error GoString, ∃ sched res,
      (∀ x ∈ sched, x.1 = httpGet) ∧
      fetchURLsConcurrently otherHost urls sched = some res) ∧
    (∀ sched1 s, runPool otherHost (Pool.init urls) sched1 = some s →
      sched1.length ≤ 3 * urls.length + 7 ∧
      ((∀ res, s.feeder ≠ .returned res) →
        ∀ httpGet, ∃ a s1, step otherHost httpGet s a = some s1) ∧
      ∀ httpGet : GoString → Except Error GoString, ∃ sched2 res,
        (∀ x ∈ sched2, x.1 = httpGet) ∧
        fetchURLsConcurrently otherHost urls (sched1 ++ sched2) = some res) ∧
    (∀ sched res, fetchURLsConcurrently otherHost urls sched = some res →
      res = (processed otherHost (Pool.init urls) sched).filterMap Prod.snd ∧
      List.Perm ((processed otherHost (Pool.init urls) sched).map Prod.fst) urls ∧
      (∀ e ∈ processed otherHost (Pool.init urls) sched,
        ∃ x ∈ sched, e.2 = linkOf otherHost x.1 e.1) ∧
      (∀ httpGet, (∀ x ∈ sched, x.1 = httpGet) →
        List.Perm res (urls.filterMap (linkOf otherHost httpGet))) ∧
      res.length ≤ urls.length ∧
      (res.length = urls.length →
        ∀ e ∈ processed otherHost (Pool.init urls) sched, ∃ link, e.2 = some link) ∧
      res.length
          + ((processed otherHost (Pool.init urls) sched).filter fun e => e.2.isNone).length
        = urls.length ∧
      (urls.length = 12 →
        ((processed otherHost (Pool.init urls) sched).filter fun e => e.2.isNone).length = 3 →
        res.length = 9)) := by
  have hcomplete : ∀ sched1 s, runPool otherHost (Pool.init urls) sched1 = some s →
      ∀ httpGet : GoString → Except Error GoString, ∃ sched2 res,
        (∀ x ∈ sched2, x.1 = httpGet) ∧
        fetchURLsConcurrently otherHost urls (sched1 ++ sched2) = some res := by
    intro sched1 s hs httpGet
    have hinv := runPool_inv otherHost sched1 _ s (init_inv urls) hs
    obtain ⟨acts, s2, res, hex, hf⟩ :=
      runPool_completes otherHost httpGet (measure s) s hinv (Nat.le_refl _)
    refine ⟨acts.map fun a => (httpGet, a), res, mem_map_const httpGet acts, ?_⟩
    rw [fetchURLsConcurrently_eq_some]
    exact ⟨s2, by rw [runPool_append otherHost sched1 _ _ s hs]; exact hex, hf⟩
  refine ⟨?_, ?_, ?_⟩
  · intro httpGet
    obtain ⟨sched2, res, h1, h2⟩ := hcomplete [] (Pool.init urls) rfl httpGet
    exact ⟨sched2, res, h1, by simpa using h2⟩
  · intro sched1 s hs
    have hinv := runPool_inv otherHost sched1 _ s (init_inv urls) hs
    refine ⟨?_, ?_, hcomplete sched1 s hs⟩
    · have := runPool_length otherHost sched1 _ s hs
      rw [measure_init] at this
      omega
    · intro hn httpGet
      exact step_progress otherHost httpGet s hinv hn
  · intro sched res hrun
    obtain ⟨s, hs, hf⟩ := (fetchURLsConcurrently_eq_some otherHost urls sched res).mp hrun
    obtain ⟨hres, _, _, hproc⟩ := returned_run otherHost urls sched s res hs hf
    have hmem := processed_mem otherHost sched (Pool.init urls)
    have hlen : (processed otherHost (Pool.init urls) sched).length = urls.length := by
      have := hproc.length_eq
      simpa using this
    have hadd := filterMap_length_add Prod.snd (processed otherHost (Pool.init urls) sched)
    have hle := List.length_filterMap_le Prod.snd (processed otherHost (Pool.init urls) sched)
    refine ⟨hres, hproc, hmem, ?_, ?_, ?_, ?_, ?_⟩
    · intro httpGet hconst
      have hcongr : (processed otherHost (Pool.init urls) sched).filterMap Prod.snd
          = ((processed otherHost (Pool.init urls) sched).map Prod.fst).filterMap
              (linkOf otherHost httpGet) := by
        rw [List.filterMap_map]
        apply List.filterMap_congr
        intro e he
        obtain ⟨x, hx, hex⟩ := hmem e he
        rw [hex, hconst x hx]
        rfl
      rw [hres, hcongr]
      exact hproc.filterMap _
    · rw [hres]; omega
    · intro h
      exact filterMap_length_eq Prod.snd _ (by rw [← hres, h, hlen])
    · rw [hres]; omega
    · intro h12 h3
      rw [hres]; omega

theorem fetchURLsConcurrently_result_witness :
    fetchURLsConcurrently refuseHost sampleUrls sampleSchedule = some sampleResult ∧
    sampleUrls.length = 12 ∧
    ((processed refuseHost (Pool.init sampleUrls) sampleSchedule).filter
      fun e => e.2.isNone).length = 3 ∧
    sampleResult.length = 9 ∧
    List.Perm sampleResult (sampleUrls.filterMap (linkOf refuseHost sampleFetch)) ∧
    fetchURLsConcurrently refuseHost [str "http://h/1", str "http://h/1"] twiceSchedule
      = some [str "- [T](http://h/1)"] :=
  ⟨by decide, by decide, by decide, by decide,
    ((fetchURLsConcurrently_result refuseHost sampleUrls).2.2 sampleSchedule sampleResult
      (by decide)).2.2.2.1 sampleFetch (mem_map_const sampleFetch _),
    by decide⟩

/-! ## The context of the pool -/

/-- C10: in every run of the pool the context is done only when all workers have returned
and the feeder has returned through `g.Wait`; no worker returns an error and the errgroup
records none; no step of the run is a `select` on `ctx.Done()`, of the feeder (its early
return) or of a worker; and the items pushed so far are the first of the input in order.
The run is never stuck before the return, takes at most `3 * |urls| + 7` steps and,
whatever the fetches give, can be continued to the return; and at the return every input
URL has been pushed and the items pulled by the workers, each by one worker, are the input
URLs up to order. -/
theorem context_never_cancelled (otherHost : GoString → GoString → Except UrlError GoString)
    (urls : List GoString) (sched : List ((GoString → Except Error GoString) × Action))
    (s : Pool) (hrun : runPool otherHost (Pool.init urls) sched = some s) :
    (s.cancelled = true →
      s.workers.all Worker.isExited = true ∧ ∃ res, s.feeder = .returned res) ∧
    (∀ e, Worker.exited (some e) ∉ s.workers) ∧
    s.groupErr = none ∧
    (∀ x ∈ sched, x.2 ≠ Action.feederDone ∧ ∀ i, x.2 ≠ Action.workerDone i) ∧
    urls = pushed otherHost (Pool.init urls) sched ++ pendingOf s.feeder ∧
    ((∀ res, s.feeder ≠ .returned res) →
      ∀ httpGet, ∃ a s1, step otherHost httpGet s a = some s1) ∧
    sched.length ≤ 3 * urls.length + 7 ∧
    (∀ httpGet : GoString → Except Error GoString, ∃ sched2 s2 res,
      (∀ x ∈ sched2, x.1 = httpGet) ∧
      runPool otherHost (Pool.init urls) (sched ++ sched2) = some s2 ∧
      s2.feeder = .returned res ∧
      pushed otherHost (Pool.init urls) (sched ++ sched2) = urls ∧
      List.Perm ((pulled otherHost (Pool.init urls) (sched ++ sched2)).map Prod.snd) urls) ∧
    (∀ res, s.feeder = .returned res →
      pushed otherHost (Pool.init urls) sched = urls ∧
      List.Perm ((pulled otherHost (Pool.init urls) sched).map Prod.snd) urls) := by
  have hinit := init_inv urls
  have hinv := runPool_inv otherHost sched _ s hinit hrun
  have hdone := runPool_no_done otherHost sched _ s hinit hrun
  have hpush := pushed_pending otherHost sched _ s hinit hrun
  refine ⟨?_, hinv.noErr, hinv.groupErr, hdone, hpush, ?_, ?_, ?_, ?_⟩
  · intro hc
    obtain ⟨res, hf⟩ := hinv.alive hc
    exact ⟨(hinv.final res hf).2, res, hf⟩
  · intro hn httpGet
    exact step_progress otherHost httpGet s hinv hn
  · have := runPool_length otherHost sched _ s hrun
    rw [measure_init] at this
    omega
  · intro httpGet
    obtain ⟨acts, s2, res, hex, hf⟩ :=
      runPool_completes otherHost httpGet (measure s) s hinv (Nat.le_refl _)
    have hrun2 : runPool otherHost (Pool.init urls) (sched ++ acts.map fun a => (httpGet, a))
        = some s2 := by
      rw [runPool_append otherHost sched _ _ s hrun]; exact hex
    obtain ⟨_, hp, hpull, _⟩ := returned_run otherHost urls _ s2 res hrun2 hf
    exact ⟨acts.map fun a => (httpGet, a), s2, res, mem_map_const httpGet acts, hrun2, hf,
      hp, hpull⟩
  · intro res hf
    obtain ⟨_, hp, hpull, _⟩ := returned_run otherHost urls sched s res hrun hf
    exact ⟨hp, hpull⟩

theorem context_never_cancelled_witness :
    runPool refuseHost (Pool.init sampleUrls) sampleSchedule = some sampleFinal ∧
    (pulled refuseHost (Pool.init sampleUrls) sampleSchedule).map Prod.fst
      = [0, 1, 2, 3, 4, 0, 1, 2, 3, 4, 0, 1] ∧
    pushed refuseHost (Pool.init sampleUrls) sampleSchedule = sampleUrls ∧
    List.Perm ((pulled refuseHost (Pool.init sampleUrls) sampleSchedule).map Prod.snd)
      sampleUrls :=
  ⟨by decide, by decide,
    (context_never_cancelled refuseHost sampleUrls sampleSchedule sampleFinal
      (by decide)).2.2.2.2.2.2.2.2 sampleResult (by decide)⟩

end Eastwas
